import Mathlib

/-!
# tpmhbs: hash-throughput measurement and HBS cost projection

A shallow embedding of `main.go`.

* The TPM is an abstract state machine (`TPM σ`): every command maps a device state to a
  new state and a response.  A `Session` carries the device state together with the list of
  commands that have been sent, so that "how many device calls were made" is observable.
* `time.Now()` differences are part of the device's response: a successful hash command
  answers with the wall-clock microseconds that `duration.Microseconds()` reports.
* `float64` is modelled by `GoFloat` as IEEE 754 binary64: a sign and a magnitude with 53
  significant bits, subnormal numbers, both zeros, infinities and NaN.  Every arithmetic
  operation rounds its exact result to nearest, ties to even.
* The regression library `github.com/sajari/regression` is third-party code outside the
  repository: `getHashPerformance` takes the fitted coefficient as a parameter
  (`Regression`).  `leastSquares` is the exact least-squares slope, an idealisation of it.
* `sort.Slice` is modelled by the insertion sort the Go runtime uses on short slices.
-/

namespace Tpmhbs

/-! ## Device model -/

/-- Commands that `main.go` sends to the TPM. -/
inductive Command where
  | getCapability (property : Nat)
  | hash (data : List UInt8)
  deriving DecidableEq, Repr

/-- An abstract TPM: `getCapability` answers `tpm2.GetCapability.Execute` followed by
`TPMProperties().CheckUnwrap()` with the list of property values or an error; `execute`
answers `tpm2.Hash.Execute` over a buffer with an error or with the elapsed microseconds
measured around the call. -/
structure TPM (σ : Type) where
  getCapability : σ → Nat → σ × Except String (List Nat)
  execute : σ → List UInt8 → σ × Except String Int

/-- A TPM connection: the device state and the commands sent so far, oldest first. -/
structure Session (σ : Type) where
  state : σ
  sent : List Command

/-- Errors of `hash`: the two `fmt.Errorf` calls at lines 155 and 169. -/
inductive HashError where
  | invalidCount (count : Int)
  | callFailed (cause : String)
  deriving DecidableEq, Repr

/-- The buffer `make([]byte, 64*count)`. -/
def hashData (count : Int) : List UInt8 :=
  List.replicate (64 * count).toNat 0

/-- Go `hash` (lines 153-173). -/
def hash {σ : Type} (tpm : TPM σ) (s : Session σ) (count : Int) :
    Session σ × Except HashError Int :=
  if count < 0 ∨ count > 16 then
    (s, .error (.invalidCount count))
  else
    let data := hashData count
    match tpm.execute s.state data with
    | (st, .error err) => (⟨st, s.sent ++ [.hash data]⟩, .error (.callFailed err))
    | (st, .ok micros) => (⟨st, s.sent ++ [.hash data]⟩, .ok micros)

/-! ## Floating point -/

/-- Values of Go `float64` (IEEE 754 binary64): a sign with a finite magnitude (zero
included, so that both zeros exist), a signed infinity, or NaN.  The magnitude is never
negative. -/
inductive GoFloat where
  | num (neg : Bool) (mag : ℚ)
  | inf (neg : Bool)
  | nan
  deriving DecidableEq

/-- Rounding of a non-negative rational to the nearest integer, ties to the even one. -/
def roundHalfEven (x : ℚ) : Int :=
  if x - ⌊x⌋ < 1 / 2 then ⌊x⌋
  else if 1 / 2 < x - ⌊x⌋ then ⌊x⌋ + 1
  else if ⌊x⌋ % 2 = 0 then ⌊x⌋ else ⌊x⌋ + 1

/-- The binary exponent of the last place of binary64 at the magnitude `a`: 53 significant
bits, and never below the subnormal spacing `2^-1074`. -/
def ulpExponent (a : ℚ) : Int :=
  max (Int.log 2 a - 52) (-1074)

/-- The magnitude `a` rounded to a multiple of its last place, nearest-even. -/
def roundMagnitude (a : ℚ) : ℚ :=
  (roundHalfEven (a / 2 ^ ulpExponent a) : ℚ) * 2 ^ ulpExponent a

/-- IEEE 754 rounding to binary64 of the exact result with sign `neg` and magnitude `a`:
round to nearest, ties to even, overflow to infinity. -/
def round64 (neg : Bool) (a : ℚ) : GoFloat :=
  if (2 : ℚ) ^ 1024 ≤ roundMagnitude a then .inf neg else .num neg (roundMagnitude a)

/-- The rational value of a sign and a magnitude. -/
def signed (neg : Bool) (mag : ℚ) : ℚ :=
  if neg then -mag else mag

/-- Go `x + y` on `float64`. -/
def GoFloat.add : GoFloat → GoFloat → GoFloat
  | .num s a, .num t b =>
    if signed s a + signed t b = 0 then .num (s && t) 0
    else round64 (decide (signed s a + signed t b < 0)) |signed s a + signed t b|
  | .num _ _, .inf t => .inf t
  | .inf s, .num _ _ => .inf s
  | .inf s, .inf t => if s = t then .inf s else .nan
  | _, _ => .nan

/-- Go `x * y` on `float64`. -/
def GoFloat.mul : GoFloat → GoFloat → GoFloat
  | .num s a, .num t b => round64 (xor s t) (a * b)
  | .num s a, .inf t => if a = 0 then .nan else .inf (xor s t)
  | .inf s, .num t b => if b = 0 then .nan else .inf (xor s t)
  | .inf s, .inf t => .inf (xor s t)
  | _, _ => .nan

/-- Go `x / y` on `float64`. -/
def GoFloat.div : GoFloat → GoFloat → GoFloat
  | .num s a, .num t b =>
    if b = 0 then (if a = 0 then .nan else .inf (xor s t)) else round64 (xor s t) (a / b)
  | .num s _, .inf t => .num (xor s t) 0
  | .inf s, .num t _ => .inf (xor s t)
  | _, _ => .nan

/-- Go conversion `float64(i)` of an integer. -/
def GoFloat.ofInt (i : Int) : GoFloat :=
  round64 (decide (i < 0)) |(i : ℚ)|

/-- The integer is a value of Go `int64`. -/
def fitsInt64 (d : Int) : Bool :=
  decide (-(2 : Int) ^ 63 ≤ d ∧ d < (2 : Int) ^ 63)

/-- Go conversion of a `float64` to `int64`, as in `time.Duration(x)`: the fraction is
discarded.  When the value does not fit in `int64` (or is not finite) the Go specification
leaves the result implementation-dependent: `none`. -/
def GoFloat.toInt64 : GoFloat → Option Int
  | .num s a =>
    if fitsInt64 (if s then -⌊a⌋ else ⌊a⌋) then some (if s then -⌊a⌋ else ⌊a⌋) else none
  | _ => none

/-- A `float64` is finite: neither an infinity nor NaN. -/
def GoFloat.isFinite : GoFloat → Bool
  | .num _ _ => true
  | _ => false

/-- The rational value of a finite `float64` (0 for the others). -/
def GoFloat.value : GoFloat → ℚ
  | .num s a => signed s a
  | _ => 0

/-- The positive rational `h` is the value of a finite `float64`. -/
def IsFloat64 (h : ℚ) : Prop :=
  round64 false h = .num false h

/-! ## Throughput estimator -/

/-- The inner loop of `getHashPerformance` (lines 182-189): `j` more timed samples of
`hashBlocks` blocks are added to `acc`, which is `results[hashBlocks]`; the first failing
`hash` ends the loop with its error. -/
def sampleLoop {σ : Type} (tpm : TPM σ) (hashBlocks : Nat) :
    Nat → Session σ → GoFloat → Session σ × Except HashError GoFloat
  | 0, s, acc => (s, .ok acc)
  | j + 1, s, acc =>
    match hash tpm s (hashBlocks : Int) with
    | (s1, .error err) => (s1, .error err)
    | (s1, .ok thisIteration) =>
      sampleLoop tpm hashBlocks j s1 (GoFloat.add acc (GoFloat.ofInt thisIteration))

/-- The outer loop of `getHashPerformance` (lines 181-191) over the remaining indices of
`results`; `done` holds the entries of `results` that are already averaged. -/
def measureLoop {σ : Type} (tpm : TPM σ) (count : Nat) :
    List Nat → Session σ → List GoFloat → Session σ × Except HashError (List GoFloat)
  | [], s, done => (s, .ok done)
  | hashBlocks :: rest, s, done =>
    match sampleLoop tpm hashBlocks count s (.num false 0) with
    | (s1, .error err) => (s1, .error err)
    | (s1, .ok total) =>
      measureLoop tpm count rest s1 (done ++ [GoFloat.div total (GoFloat.ofInt (count : Int))])

/-- The data points trained at lines 196-198, in order: observation `avgTime`, variable
`float64(hashBlocks)`. -/
def trainingData (results : List GoFloat) : List (GoFloat × GoFloat) :=
  results.enum.map (fun p => (p.2, GoFloat.ofInt (p.1 : Int)))

/-- The third-party `regression.Regression` as `getHashPerformance` uses it: the function
from the trained data points (observation, variable) to `Coeff(1)` after `Run`.  The library
is not part of the repository, so the fit is a parameter of the model. -/
abbrev Regression := List (GoFloat × GoFloat) → GoFloat

/-- An idealised regression: the exact least-squares slope of the data points, rounded once
to `float64`.  The library computes the fit by a QR decomposition in `float64`, whose result
agrees with this slope only up to rounding error. -/
def leastSquares : Regression := fun data =>
  let n : ℚ := data.length
  let sx := (data.map (fun p => p.2.value)).sum
  let sy := (data.map (fun p => p.1.value)).sum
  let sxy := (data.map (fun p => p.2.value * p.1.value)).sum
  let sxx := (data.map (fun p => p.2.value * p.2.value)).sum
  if data.all (fun p => p.1.isFinite && p.2.isFinite) ∧ n * sxx - sx * sx ≠ 0 then
    round64 (decide ((n * sxy - sx * sy) / (n * sxx - sx * sx) < 0))
      |(n * sxy - sx * sy) / (n * sxx - sx * sx)|
  else .nan

/-- Go `getHashPerformance` (lines 175-201); the progress bar is not modelled. -/
def getHashPerformance {σ : Type} (regression : Regression) (tpm : TPM σ) (s : Session σ) :
    Session σ × Except HashError GoFloat :=
  match measureLoop tpm 10 (List.range 17) s [] with
  | (s1, .error err) => (s1, .error err)
  | (s1, .ok results) =>
    (s1, .ok (GoFloat.div (.num false 1000000000) (regression (trainingData results))))

/-- The buffers of the measurement plan: 10 consecutive hash calls for each block count
0, 1, ..., 16 in that order. -/
def schedule : List (List UInt8) :=
  (List.range 17).flatMap (fun n => List.replicate 10 (hashData (n : Int)))

/-- The responses of the device to a sequence of hash buffers, fed one after the other. -/
def responses {σ : Type} (tpm : TPM σ) : σ → List (List UInt8) → List (Except String Int)
  | _, [] => []
  | st, data :: rest => (tpm.execute st data).2 :: responses tpm (tpm.execute st data).1 rest

/-- Sequential run of hash commands over the given buffers that stops after the first
failing command: the session reached and whether every command succeeded. -/
def runCalls {σ : Type} (tpm : TPM σ) : List (List UInt8) → Session σ → Session σ × Bool
  | [], s => (s, true)
  | data :: rest, s =>
    match tpm.execute s.state data with
    | (st, .error _) => (⟨st, s.sent ++ [.hash data]⟩, false)
    | (st, .ok _) => runCalls tpm rest ⟨st, s.sent ++ [.hash data]⟩

/-- A Go call returned a nil error. -/
def succeeded {ε α : Type} : Except ε α → Bool
  | .ok _ => true
  | .error _ => false

/-- A device times every hash over `n` blocks (`n ≤ 16`) at exactly `a + b * n`
microseconds and never fails. -/
def LinearTiming {σ : Type} (tpm : TPM σ) (a b : Int) : Prop :=
  ∀ (st : σ) (n : Nat), n ≤ 16 → (tpm.execute st (hashData (n : Int))).2 = .ok (a + b * n)

/-- A synthetic device with the injected timing `a + b * n` microseconds for `n` blocks; its
state counts the commands received. -/
def linearDevice (a b : Int) : TPM Nat where
  getCapability st _ := (st + 1, .ok [0])
  execute st data := (st + 1, .ok (a + b * ((data.length / 64 : Nat) : Int)))

/-- A synthetic device that takes 7 microseconds per hash and fails on the command it
receives in state `k` (the commands are counted from 0). -/
def failingDevice (k : Nat) : TPM Nat where
  getCapability st _ := (st + 1, .ok [0])
  execute st _ := (st + 1, if st = k then .error "TPM_RC_FAILURE" else .ok 7)

/-! ## Scheme catalog and estimate projector -/

/-- Modelled from the spec: the element type of `nistApprovedParameters`, whose declaration
is not part of `main.go`.  The fields are the ones `printEstimates` reads; the work counts
and sizes are Go integers, the tree height `H` is a shift count. -/
structure Parameters where
  FriendlyName : String
  W : Int
  H : Nat
  SigSize : Int
  KeygenWork : Int
  SigWork : Int
  deriving DecidableEq, Repr

/-- Go `type estimateOrdering int`. -/
abbrev estimateOrdering := Int

def byName : estimateOrdering := 0

def bySigSize : estimateOrdering := 1

def bySigWork : estimateOrdering := 2

def byKeygenWork : estimateOrdering := 3

/-- The comparison closure handed to `sort.Slice` (lines 214-229), on the elements
`algs[i]` and `algs[j]`. -/
def less (sortBy : estimateOrdering) (x y : Parameters) : Bool :=
  if sortBy = byName then
    if x.FriendlyName = y.FriendlyName then decide (x.W < x.W)
    else decide (x.FriendlyName < y.FriendlyName)
  else if sortBy = bySigSize then decide (x.SigSize < y.SigSize)
  else if sortBy = bySigWork then decide (x.SigWork < y.SigWork)
  else if sortBy = byKeygenWork then decide (x.KeygenWork < y.KeygenWork)
  else false

/-- One step of insertion sort: `x`, the element after the sorted prefix, is swapped toward
the front while it is less than its left neighbour.  The prefix is given nearest element
first. -/
def insertLeft {α : Type} (lt : α → α → Bool) (x : α) : List α → List α
  | [] => [x]
  | y :: ys => if lt x y then y :: insertLeft lt x ys else x :: y :: ys

/-- Go `sort.Slice`, by the insertion sort the Go runtime runs on slices of at most 12
elements.  On longer slices the library may order entries with equal keys differently; it
sorts by the same comparison. -/
def sortSlice {α : Type} (lt : α → α → Bool) (l : List α) : List α :=
  (l.foldl (fun sortedRev x => insertLeft lt x sortedRev) []).reverse

/-- Wrap-around of a 64-bit signed integer. -/
def wrapInt64 (x : Int) : Int :=
  (x + 2 ^ 63) % 2 ^ 64 - 2 ^ 63

/-- A row appended to the table (lines 238-245); durations are nanoseconds. -/
structure Row where
  friendlyName : String
  w : Int
  signatures : Int
  sigSize : Int
  keygen : Option Int
  signing : Option Int
  deriving DecidableEq, Repr

/-- The expression `time.Duration(float64(work) / hps * 1000000000)` of lines 236-237. -/
def estimate (work : Int) (hps : GoFloat) : Option Int :=
  GoFloat.toInt64
    (GoFloat.mul (GoFloat.div (GoFloat.ofInt work) hps) (.num false 1000000000))

/-- The magnitude of `float64(work)`. -/
def workMagnitude (work : Int) : ℚ :=
  roundMagnitude |(work : ℚ)|

/-- The magnitude of `float64(work) / hps` for a finite `hps` of magnitude `h`. -/
def rateMagnitude (work : Int) (h : ℚ) : ℚ :=
  roundMagnitude (workMagnitude work / h)

/-- The magnitude of `float64(work) / hps * 1000000000` for a finite `hps` of magnitude
`h`. -/
def nanosMagnitude (work : Int) (h : ℚ) : ℚ :=
  roundMagnitude (rateMagnitude work h * 1000000000)

/-- The integer `t` with the sign of `work`. -/
def withSign (work : Int) (t : Int) : Int :=
  if work < 0 then -t else t

/-- The body of the loop at lines 235-246. -/
def estimateRow (hps : GoFloat) (alg : Parameters) : Row where
  friendlyName := alg.FriendlyName
  w := alg.W
  signatures := wrapInt64 (2 ^ alg.H)
  sigSize := alg.SigSize
  keygen := estimate alg.KeygenWork hps
  signing := estimate alg.SigWork hps

/-- Device identity as collected by `getTPMInfo`; the fields hold the raw bytes and numbers
that the Go code formats into strings. -/
structure tpmInfo where
  manufacturer : List UInt8
  model : List UInt8
  fwVersion : List UInt8 × List UInt8
  specVersion : Nat × Nat
  deriving DecidableEq

/-- Go `printEstimates` (lines 212-261) over the catalog `nistApprovedParameters`: the rows
of the table in the order they are appended.  Rendering is not modelled. -/
def printEstimates (nistApprovedParameters : List Parameters) (_info : tpmInfo)
    (hps : GoFloat) (sortBy : estimateOrdering) : List Row :=
  (sortSlice (less sortBy) nistApprovedParameters).map (estimateRow hps)

/-- Scheme A of the end-to-end scenario: `keygenWork = 100`, `sigWork = 50`,
`sigSize = 1000`. -/
def schemeA : Parameters := ⟨"A", 4, 10, 1000, 100, 50⟩

/-- Scheme B of the end-to-end scenario: `keygenWork = 10`, `sigWork = 5`,
`sigSize = 2000`. -/
def schemeB : Parameters := ⟨"B", 4, 10, 2000, 10, 5⟩

/-- A scheme whose key generation and signing each take a single hash. -/
def schemeOne : Parameters := ⟨"one", 4, 10, 1000, 1, 1⟩

/-- A scheme whose key generation and signing each take three hashes. -/
def schemeThree : Parameters := ⟨"three", 4, 10, 1000, 3, 3⟩

/-- Identity of an unnamed device. -/
def noInfo : tpmInfo := ⟨[], [], ([], []), (0, 0)⟩

/-! ## Device identity and the main program -/

/-- Errors of `getCap` (lines 90-99). -/
inductive CapError where
  | failed (cause : String)
  | missing (property : Nat)
  deriving DecidableEq, Repr

/-- Go `binary.BigEndian.PutUint32`. -/
def putUint32 (v : Nat) : List UInt8 :=
  [UInt8.ofNat (v / 2 ^ 24 % 256), UInt8.ofNat (v / 2 ^ 16 % 256),
    UInt8.ofNat (v / 2 ^ 8 % 256), UInt8.ofNat (v % 256)]

/-- Go `binary.BigEndian.Uint32`. -/
def getUint32 (b : List UInt8) : Nat :=
  (b.take 4).foldl (fun acc x => acc * 256 + x.toNat) 0

/-- Go `getCap` (lines 83-103). -/
def getCap {σ : Type} (tpm : TPM σ) (s : Session σ) (property : Nat) :
    Session σ × Except CapError (List UInt8) :=
  match tpm.getCapability s.state property with
  | (st, .error err) => (⟨st, s.sent ++ [.getCapability property]⟩, .error (.failed err))
  | (st, .ok props) =>
    match props with
    | [value] => (⟨st, s.sent ++ [.getCapability property]⟩, .ok (putUint32 value))
    | _ => (⟨st, s.sent ++ [.getCapability property]⟩, .error (.missing property))

def TPMPTRevision : Nat := 0x102

def TPMPTManufacturer : Nat := 0x105

def TPMPTVendorString1 : Nat := 0x106

def TPMPTVendorString2 : Nat := 0x107

def TPMPTVendorString3 : Nat := 0x108

def TPMPTVendorString4 : Nat := 0x109

def TPMPTFirmwareVersion1 : Nat := 0x10B

def TPMPTFirmwareVersion2 : Nat := 0x10C

/-- Sequencing of two device operations with Go error propagation: when the first returns
an error, the second is not run (`if err != nil { return nil, err }`). -/
def andThen {σ ε α β : Type} (first : Session σ → Session σ × Except ε α)
    (next : α → Session σ → Session σ × Except ε β) (s : Session σ) :
    Session σ × Except ε β :=
  match first s with
  | (s1, .error err) => (s1, .error err)
  | (s1, .ok value) => next value s1

/-- Go `getTPMInfo` (lines 105-151). -/
def getTPMInfo {σ : Type} (tpm : TPM σ) : Session σ → Session σ × Except CapError tpmInfo :=
  andThen (fun s => getCap tpm s TPMPTManufacturer) fun mfr =>
  andThen (fun s => getCap tpm s TPMPTFirmwareVersion1) fun fw1 =>
  andThen (fun s => getCap tpm s TPMPTFirmwareVersion2) fun fw2 =>
  andThen (fun s => getCap tpm s TPMPTRevision) fun specVersion =>
  andThen (fun s => getCap tpm s TPMPTVendorString1) fun model1 =>
  andThen (fun s => getCap tpm s TPMPTVendorString2) fun model2 =>
  andThen (fun s => getCap tpm s TPMPTVendorString3) fun model3 =>
  andThen (fun s => getCap tpm s TPMPTVendorString4) fun model4 => fun s =>
    (s, .ok
      { manufacturer := mfr
        fwVersion := (fw1, fw2)
        specVersion := (getUint32 specVersion / 100, getUint32 specVersion % 100)
        model := model1 ++ model2 ++ model3 ++ model4 })

/-- What the process does to the outside world, in order. -/
inductive Event where
  | openTPM
  | command (c : Command)
  | closeTPM
  deriving DecidableEq, Repr

/-- The machine the program runs on: the outcome of `transport.OpenTPM()` and the device. -/
structure Host (σ : Type) where
  openTPM : Except String σ
  tpm : TPM σ

/-- Errors of `mainErr`: the `fmt.Errorf` calls at lines 46, 51, 57 and 62. -/
inductive MainError where
  | unknownSortBy (value : String)
  | couldNotOpenTPM (cause : String)
  | couldNotGetInfo (cause : CapError)
  | couldNotGetPerformance (cause : HashError)
  deriving DecidableEq, Repr

/-- The `switch *sortBy` of lines 36-47; `none` is the `default` branch. -/
def selectOrdering (sortBy : String) : Option estimateOrdering :=
  if sortBy = "name" then some byName
  else if sortBy = "keygen" then some byKeygenWork
  else if sortBy = "signing" then some bySigWork
  else if sortBy = "size" then some bySigSize
  else none

/-- A run of `mainErr`: the events it caused and the error or the printed rows. -/
structure Outcome where
  events : List Event
  result : Except MainError (List Row)

/-- Go `mainErr` (lines 32-66) for the flag value `sortBy`. -/
def mainErr {σ : Type} (regression : Regression) (host : Host σ)
    (nistApprovedParameters : List Parameters) (sortBy : String) : Outcome :=
  match selectOrdering sortBy with
  | none => ⟨[], .error (.unknownSortBy sortBy)⟩
  | some ordering =>
    match host.openTPM with
    | .error err => ⟨[.openTPM], .error (.couldNotOpenTPM err)⟩
    | .ok st =>
      match getTPMInfo host.tpm ⟨st, []⟩ with
      | (s1, .error err) =>
        ⟨.openTPM :: s1.sent.map .command ++ [.closeTPM], .error (.couldNotGetInfo err)⟩
      | (s1, .ok info) =>
        match getHashPerformance regression host.tpm s1 with
        | (s2, .error err) =>
          ⟨.openTPM :: s2.sent.map .command ++ [.closeTPM],
            .error (.couldNotGetPerformance err)⟩
        | (s2, .ok hps) =>
          ⟨.openTPM :: s2.sent.map .command ++ [.closeTPM],
            .ok (printEstimates nistApprovedParameters info hps ordering)⟩

/-! ## Hash timer -/

theorem hash_sent_of_valid {σ : Type} (tpm : TPM σ) (s : Session σ) (count : Int)
    (h0 : 0 ≤ count) (h16 : count ≤ 16) :
    (hash tpm s count).1.sent = s.sent ++ [.hash (hashData count)] := by
  have hc : ¬ (count < 0 ∨ count > 16) := by omega
  unfold hash
  rw [if_neg hc]
  rcases h : tpm.execute s.state (hashData count) with ⟨st, r⟩
  cases r <;> simp [h]

/-- C7. For `0 ≤ count ≤ 16`, `hash` sends exactly one command to the device, a hash command
over a buffer of exactly `64 * count` bytes, all zero; for `count < 0` or `count > 16` it
returns the invalid-count error and leaves the session (device state and commands sent)
untouched. -/
theorem hash_device_call {σ : Type} (tpm : TPM σ) (s : Session σ) (count : Int) :
    (0 ≤ count ∧ count ≤ 16 →
      (∃ data : List UInt8, (hash tpm s count).1.sent = s.sent ++ [.hash data] ∧
        data.length = (64 * count).toNat ∧ ((data.length : Nat) : Int) = 64 * count ∧
        ∀ x ∈ data, x = 0)) ∧
    (count < 0 ∨ count > 16 →
      (hash tpm s count).2 = .error (.invalidCount count) ∧
      (hash tpm s count).1.sent = s.sent ∧ (hash tpm s count).1.state = s.state) := by
  constructor
  · rintro ⟨h0, h16⟩
    refine ⟨hashData count, hash_sent_of_valid tpm s count h0 h16, ?_, ?_, ?_⟩
    · simp [hashData]
    · simp only [hashData, List.length_replicate]
      omega
    · intro x hx
      exact List.eq_of_mem_replicate hx
  · intro h
    simp [hash, h]

theorem hash_device_call_witness :
    (∃ data : List UInt8,
        (hash (linearDevice 5 3) ⟨0, []⟩ 3).1.sent = [] ++ [.hash data] ∧
        data.length = (64 * (3 : Int)).toNat ∧ ((data.length : Nat) : Int) = 64 * 3 ∧
        ∀ x ∈ data, x = 0) ∧
      (hash (linearDevice 5 3) ⟨0, []⟩ 17).2 = .error (.invalidCount 17) ∧
      (hash (linearDevice 5 3) ⟨0, []⟩ (-1)).1.sent = [] :=
  ⟨(hash_device_call (linearDevice 5 3) ⟨0, []⟩ 3).1 ⟨by decide, by decide⟩,
    ((hash_device_call (linearDevice 5 3) ⟨0, []⟩ 17).2 (Or.inr (by decide))).1,
    ((hash_device_call (linearDevice 5 3) ⟨0, []⟩ (-1)).2 (Or.inl (by decide))).2.1⟩

/-! ## Rounding to binary64 -/

theorem roundHalfEven_cases (x : ℚ) : roundHalfEven x = ⌊x⌋ ∨ roundHalfEven x = ⌊x⌋ + 1 := by
  unfold roundHalfEven
  split
  · exact Or.inl rfl
  · split
    · exact Or.inr rfl
    · split
      · exact Or.inl rfl
      · exact Or.inr rfl

theorem roundHalfEven_sub_le (x : ℚ) : (roundHalfEven x : ℚ) - x ≤ 1 / 2 := by
  have h1 : ((⌊x⌋ : Int) : ℚ) ≤ x := Int.floor_le x
  unfold roundHalfEven
  split
  · linarith
  · split
    · push_cast
      linarith
    · split
      · linarith
      · push_cast
        linarith

theorem sub_roundHalfEven_le (x : ℚ) : x - (roundHalfEven x : ℚ) ≤ 1 / 2 := by
  have h2 : x < ((⌊x⌋ : Int) : ℚ) + 1 := Int.lt_floor_add_one x
  unfold roundHalfEven
  split
  · linarith
  · split
    · push_cast
      linarith
    · split
      · linarith
      · push_cast
        linarith

theorem roundHalfEven_intCast (n : Int) : roundHalfEven (n : ℚ) = n := by
  simp [roundHalfEven]

theorem le_roundHalfEven (n : Int) (x : ℚ) (h : (n : ℚ) ≤ x) : n ≤ roundHalfEven x := by
  have h1 : n ≤ ⌊x⌋ := Int.le_floor.mpr h
  rcases roundHalfEven_cases x with h2 | h2 <;> omega

theorem roundHalfEven_le (n : Int) (x : ℚ) (h : x ≤ (n : ℚ)) : roundHalfEven x ≤ n := by
  have h1 : ⌊x⌋ ≤ n := by
    have : ((⌊x⌋ : Int) : ℚ) ≤ (n : ℚ) := le_trans (Int.floor_le x) h
    exact_mod_cast this
  by_cases h2 : ⌊x⌋ = n
  · have h3 : x = (n : ℚ) := by
      have : ((⌊x⌋ : Int) : ℚ) ≤ x := Int.floor_le x
      rw [h2] at this
      exact le_antisymm h this
    rw [h3, roundHalfEven_intCast]
  · rcases roundHalfEven_cases x with h3 | h3 <;> omega

theorem log_eq_of_bounds (r : ℚ) (k : Int) (h1 : (2 : ℚ) ^ k ≤ r) (h2 : r < (2 : ℚ) ^ (k + 1)) :
    Int.log 2 r = k := by
  have hr : 0 < r := lt_of_lt_of_le (by positivity) h1
  have h3 : k ≤ Int.log 2 r := (Int.zpow_le_iff_le_log (by norm_num) hr).mp (by exact_mod_cast h1)
  have h4 : Int.log 2 r < k + 1 := (Int.lt_zpow_iff_log_lt (by norm_num) hr).mp (by exact_mod_cast h2)
  omega

theorem zpow_log_le (r : ℚ) (hr : 0 < r) : (2 : ℚ) ^ Int.log 2 r ≤ r := by
  have h := Int.zpow_log_le_self (b := 2) (r := r) (by norm_num) hr
  exact_mod_cast h

theorem lt_zpow_log_succ (r : ℚ) : r < (2 : ℚ) ^ (Int.log 2 r + 1) := by
  have h := Int.lt_zpow_succ_log_self (b := 2) (by norm_num) r
  exact_mod_cast h

theorem log_half (a : ℚ) (ha : 0 < a) : Int.log 2 (a / 2) = Int.log 2 a - 1 := by
  apply log_eq_of_bounds
  · have h := zpow_log_le a ha
    rw [zpow_sub_one₀ (by norm_num : (2 : ℚ) ≠ 0)]
    rw [div_eq_mul_inv]
    exact mul_le_mul_of_nonneg_right h (by norm_num)
  · have h := lt_zpow_log_succ a
    rw [sub_add_cancel]
    rw [zpow_add_one₀ (by norm_num : (2 : ℚ) ≠ 0)] at h
    linarith

theorem le_log_of_zpow_le (a : ℚ) (k : Int) (h : (2 : ℚ) ^ k ≤ a) : k ≤ Int.log 2 a := by
  have ha : 0 < a := lt_of_lt_of_le (by positivity) h
  exact (Int.zpow_le_iff_le_log (by norm_num) ha).mp (by exact_mod_cast h)

theorem log_le_of_le_zpow (a : ℚ) (k : Int) (ha : 0 < a) (h : a ≤ (2 : ℚ) ^ k) :
    Int.log 2 a ≤ k := by
  have h1 := Int.log_mono_right (b := 2) ha h
  have h2 : Int.log 2 ((2 : ℚ) ^ k) = k := by
    have := Int.log_zpow (R := ℚ) (b := 2) (by norm_num) k
    exact_mod_cast this
  rw [h2] at h1
  exact h1

theorem two_zpow_pos (k : Int) : (0 : ℚ) < (2 : ℚ) ^ k := by positivity

theorem zpow_nonneg_cast (n : Int) (hn : 0 ≤ n) :
    (2 : ℚ) ^ n = (((2 : Int) ^ n.toNat : Int) : ℚ) := by
  obtain ⟨m, rfl⟩ := Int.eq_ofNat_of_zero_le hn
  simp

theorem ulpExponent_of_normal (a : ℚ) (h : -1022 ≤ Int.log 2 a) :
    ulpExponent a = Int.log 2 a - 52 := by
  unfold ulpExponent
  exact max_eq_left (by omega)

theorem ulpExponent_of_subnormal (a : ℚ) (h : Int.log 2 a ≤ -1022) :
    ulpExponent a = -1074 := by
  unfold ulpExponent
  exact max_eq_right (by omega)

theorem ulpExponent_half (a : ℚ) (ha : (2 : ℚ) ^ (-1021 : Int) ≤ a) :
    ulpExponent (a / 2) = ulpExponent a - 1 := by
  have hpos : 0 < a := lt_of_lt_of_le (two_zpow_pos _) ha
  have hl := le_log_of_zpow_le a (-1021) ha
  rw [ulpExponent_of_normal a (by omega), ulpExponent_of_normal (a / 2) (by rw [log_half a hpos]; omega),
    log_half a hpos]
  omega

theorem roundMagnitude_half (a : ℚ) (ha : (2 : ℚ) ^ (-1021 : Int) ≤ a) :
    roundMagnitude (a / 2) = roundMagnitude a / 2 := by
  unfold roundMagnitude
  rw [ulpExponent_half a ha, zpow_sub_one₀ (by norm_num : (2 : ℚ) ≠ 0)]
  have h2 : a / 2 / (2 ^ ulpExponent a * 2⁻¹) = a / 2 ^ ulpExponent a := by
    have := ne_of_gt (two_zpow_pos (ulpExponent a))
    field_simp
  rw [h2]
  ring

theorem roundMagnitude_zero : roundMagnitude 0 = 0 := by
  simp [roundMagnitude, roundHalfEven]

theorem roundMagnitude_nonneg (a : ℚ) (ha : 0 ≤ a) : 0 ≤ roundMagnitude a := by
  unfold roundMagnitude
  have h1 : (0 : ℚ) ≤ a / 2 ^ ulpExponent a := div_nonneg ha (le_of_lt (two_zpow_pos _))
  have h2 : (0 : Int) ≤ roundHalfEven (a / 2 ^ ulpExponent a) :=
    le_roundHalfEven 0 _ (by simpa using h1)
  have h3 : (0 : ℚ) ≤ (roundHalfEven (a / 2 ^ ulpExponent a) : ℚ) := by exact_mod_cast h2
  exact mul_nonneg h3 (le_of_lt (two_zpow_pos _))

theorem ulpExponent_le_log (a : ℚ) (h : -1074 ≤ Int.log 2 a) : ulpExponent a ≤ Int.log 2 a := by
  unfold ulpExponent
  exact max_le (by omega) h

theorem le_roundMagnitude (k : Int) (hk : -1074 ≤ k) (a : ℚ) (h : (2 : ℚ) ^ k ≤ a) :
    (2 : ℚ) ^ k ≤ roundMagnitude a := by
  have hpos : 0 < a := lt_of_lt_of_le (two_zpow_pos _) h
  have hl := le_log_of_zpow_le a k h
  have he := ulpExponent_le_log a (by omega)
  have h1 : (2 : ℚ) ^ (Int.log 2 a - ulpExponent a) ≤ a / 2 ^ ulpExponent a := by
    rw [zpow_sub₀ (by norm_num : (2 : ℚ) ≠ 0)]
    exact div_le_div_of_nonneg_right (zpow_log_le a hpos) (le_of_lt (two_zpow_pos _))
  rw [zpow_nonneg_cast (Int.log 2 a - ulpExponent a) (by omega)] at h1
  have h2 := le_roundHalfEven _ _ h1
  have h3 : (((2 : Int) ^ (Int.log 2 a - ulpExponent a).toNat : Int) : ℚ) ≤
      (roundHalfEven (a / 2 ^ ulpExponent a) : ℚ) := by exact_mod_cast h2
  rw [← zpow_nonneg_cast _ (by omega)] at h3
  unfold roundMagnitude
  calc (2 : ℚ) ^ k ≤ (2 : ℚ) ^ Int.log 2 a := zpow_le_zpow_right₀ (by norm_num) hl
    _ = (2 : ℚ) ^ (Int.log 2 a - ulpExponent a) * 2 ^ ulpExponent a := by
        rw [← zpow_add₀ (by norm_num : (2 : ℚ) ≠ 0)]
        congr 1
        omega
    _ ≤ _ := mul_le_mul_of_nonneg_right h3 (le_of_lt (two_zpow_pos _))

theorem roundMagnitude_le (k : Int) (hk : -1074 ≤ k) (a : ℚ) (ha : 0 ≤ a)
    (h : a ≤ (2 : ℚ) ^ k) : roundMagnitude a ≤ (2 : ℚ) ^ k := by
  rcases eq_or_lt_of_le ha with h0 | hpos
  · rw [← h0, roundMagnitude_zero]
    exact le_of_lt (two_zpow_pos _)
  · have hl := log_le_of_le_zpow a k hpos h
    have he : ulpExponent a ≤ k := by
      unfold ulpExponent
      exact max_le (by omega) hk
    have h1 : a / 2 ^ ulpExponent a ≤ (2 : ℚ) ^ (k - ulpExponent a) := by
      rw [zpow_sub₀ (by norm_num : (2 : ℚ) ≠ 0)]
      exact div_le_div_of_nonneg_right h (le_of_lt (two_zpow_pos _))
    rw [zpow_nonneg_cast (k - ulpExponent a) (by omega)] at h1
    have h2 := roundHalfEven_le _ _ h1
    have h3 : (roundHalfEven (a / 2 ^ ulpExponent a) : ℚ) ≤
        (((2 : Int) ^ (k - ulpExponent a).toNat : Int) : ℚ) := by exact_mod_cast h2
    rw [← zpow_nonneg_cast _ (by omega)] at h3
    unfold roundMagnitude
    calc _ ≤ (2 : ℚ) ^ (k - ulpExponent a) * 2 ^ ulpExponent a :=
          mul_le_mul_of_nonneg_right h3 (le_of_lt (two_zpow_pos _))
      _ = (2 : ℚ) ^ k := by
        rw [← zpow_add₀ (by norm_num : (2 : ℚ) ≠ 0)]
        congr 1
        omega

theorem roundMagnitude_of_int (a : ℚ) (m : Int) (h : a / 2 ^ ulpExponent a = (m : ℚ)) :
    roundMagnitude a = a := by
  unfold roundMagnitude
  rw [h, roundHalfEven_intCast, ← h]
  exact div_mul_cancel₀ a (ne_of_gt (two_zpow_pos _))

theorem int_of_roundMagnitude (a : ℚ) (h : roundMagnitude a = a) :
    a / 2 ^ ulpExponent a = ((roundHalfEven (a / 2 ^ ulpExponent a) : Int) : ℚ) := by
  have h1 : (roundHalfEven (a / 2 ^ ulpExponent a) : ℚ) * 2 ^ ulpExponent a = a := h
  rw [div_eq_iff (ne_of_gt (two_zpow_pos _))]
  exact h1.symm

theorem roundMagnitude_natCast (n : Nat) (h : n < 2 ^ 53) : roundMagnitude (n : ℚ) = n := by
  rcases Nat.eq_zero_or_pos n with h0 | hpos
  · rw [h0]
    simpa using roundMagnitude_zero
  · have hlog : Int.log 2 (n : ℚ) = (Nat.log 2 n : Int) := Int.log_natCast 2 n
    have hlt : Nat.log 2 n < 53 := Nat.log_lt_of_lt_pow (by omega) h
    have he : ulpExponent (n : ℚ) = (Nat.log 2 n : Int) - 52 := by
      rw [ulpExponent_of_normal _ (by rw [hlog]; omega), hlog]
    apply roundMagnitude_of_int _ ((n : Int) * 2 ^ (52 - Nat.log 2 n))
    rw [he, div_eq_iff (ne_of_gt (two_zpow_pos _))]
    push_cast
    rw [mul_assoc, ← zpow_natCast, ← zpow_add₀ (by norm_num : (2 : ℚ) ≠ 0)]
    have : ((52 - Nat.log 2 n : Nat) : Int) + ((Nat.log 2 n : Int) - 52) = 0 := by omega
    rw [this]
    simp

theorem roundMagnitude_double (h : ℚ) (hpos : 0 < h) (hrep : roundMagnitude h = h) :
    roundMagnitude (2 * h) = 2 * h := by
  have hm := int_of_roundMagnitude h hrep
  have hlog : Int.log 2 (2 * h) = Int.log 2 h + 1 := by
    have := log_half (2 * h) (by positivity)
    rw [mul_div_cancel_left₀ h (by norm_num : (2 : ℚ) ≠ 0)] at this
    omega
  by_cases hn : -1022 ≤ Int.log 2 h
  · apply roundMagnitude_of_int _ (roundHalfEven (h / 2 ^ ulpExponent h))
    rw [ulpExponent_of_normal (2 * h) (by omega), hlog, ← hm, ulpExponent_of_normal h hn]
    have e : Int.log 2 h + 1 - 52 = (Int.log 2 h - 52) + 1 := by omega
    rw [e, zpow_add_one₀ (by norm_num : (2 : ℚ) ≠ 0)]
    have := ne_of_gt (two_zpow_pos (Int.log 2 h - 52))
    field_simp
    ring
  · rw [ulpExponent_of_subnormal h (by omega)] at hm
    apply roundMagnitude_of_int _ (2 * roundHalfEven (h / 2 ^ (-1074 : Int)))
    rw [ulpExponent_of_subnormal (2 * h) (by omega)]
    push_cast
    rw [← hm]
    ring

theorem roundMagnitude_sub_le (a : ℚ) :
    roundMagnitude a - a ≤ (2 : ℚ) ^ ulpExponent a / 2 ∧
      a - roundMagnitude a ≤ (2 : ℚ) ^ ulpExponent a / 2 := by
  have hE := two_zpow_pos (ulpExponent a)
  have ha : a = a / 2 ^ ulpExponent a * 2 ^ ulpExponent a :=
    (div_mul_cancel₀ a (ne_of_gt hE)).symm
  have h1 := roundHalfEven_sub_le (a / 2 ^ ulpExponent a)
  have h2 := sub_roundHalfEven_le (a / 2 ^ ulpExponent a)
  unfold roundMagnitude
  constructor
  · calc (roundHalfEven (a / 2 ^ ulpExponent a) : ℚ) * 2 ^ ulpExponent a - a
        = ((roundHalfEven (a / 2 ^ ulpExponent a) : ℚ) - a / 2 ^ ulpExponent a) *
            2 ^ ulpExponent a := by
          rw [sub_mul, ← ha]
      _ ≤ 1 / 2 * 2 ^ ulpExponent a := mul_le_mul_of_nonneg_right h1 (le_of_lt hE)
      _ = 2 ^ ulpExponent a / 2 := by ring
  · calc a - (roundHalfEven (a / 2 ^ ulpExponent a) : ℚ) * 2 ^ ulpExponent a
        = (a / 2 ^ ulpExponent a - (roundHalfEven (a / 2 ^ ulpExponent a) : ℚ)) *
            2 ^ ulpExponent a := by
          rw [sub_mul, ← ha]
      _ ≤ 1 / 2 * 2 ^ ulpExponent a := mul_le_mul_of_nonneg_right h2 (le_of_lt hE)
      _ = 2 ^ ulpExponent a / 2 := by ring

theorem zpow_ulpExponent_le (a : ℚ) (ha : 0 < a) :
    (2 : ℚ) ^ ulpExponent a ≤ a * 2 ^ (-52 : Int) + 2 ^ (-1074 : Int) := by
  by_cases hn : -1022 ≤ Int.log 2 a
  · rw [ulpExponent_of_normal a hn, sub_eq_add_neg, zpow_add₀ (by norm_num : (2 : ℚ) ≠ 0)]
    have h1 := mul_le_mul_of_nonneg_right (zpow_log_le a ha) (le_of_lt (two_zpow_pos (-52)))
    have h2 := two_zpow_pos (-1074)
    linarith
  · rw [ulpExponent_of_subnormal a (by omega)]
    have h1 : 0 ≤ a * 2 ^ (-52 : Int) := mul_nonneg (le_of_lt ha) (le_of_lt (two_zpow_pos _))
    linarith

theorem zpow_ulpExponent_le_of_normal (a : ℚ) (ha : (2 : ℚ) ^ (-1022 : Int) ≤ a) :
    (2 : ℚ) ^ ulpExponent a ≤ a * 2 ^ (-52 : Int) := by
  have hpos : 0 < a := lt_of_lt_of_le (two_zpow_pos _) ha
  rw [ulpExponent_of_normal a (le_log_of_zpow_le a _ ha), sub_eq_add_neg,
    zpow_add₀ (by norm_num : (2 : ℚ) ≠ 0)]
  exact mul_le_mul_of_nonneg_right (zpow_log_le a hpos) (le_of_lt (two_zpow_pos (-52)))

theorem half_zpow (k : Int) : (2 : ℚ) ^ k / 2 = 2 ^ (k - 1) := by
  rw [zpow_sub_one₀ (by norm_num : (2 : ℚ) ≠ 0)]
  ring

theorem roundMagnitude_upper (a : ℚ) (ha : 0 ≤ a) :
    roundMagnitude a ≤ a * (1 + 2 ^ (-53 : Int)) + 2 ^ (-1075 : Int) := by
  rcases eq_or_lt_of_le ha with h0 | hpos
  · rw [← h0, roundMagnitude_zero]
    have := two_zpow_pos (-1075)
    linarith
  · have h1 := (roundMagnitude_sub_le a).1
    have h2 := zpow_ulpExponent_le a hpos
    have h3 : (2 : ℚ) ^ (-52 : Int) / 2 = 2 ^ (-53 : Int) := half_zpow (-52)
    have h4 : (2 : ℚ) ^ (-1074 : Int) / 2 = 2 ^ (-1075 : Int) := half_zpow (-1074)
    have h5 : a * 2 ^ (-52 : Int) / 2 = a * 2 ^ (-53 : Int) := by rw [← h3]; ring
    generalize (2 : ℚ) ^ (-53 : Int) = u at h3 h5 ⊢
    generalize (2 : ℚ) ^ (-52 : Int) = v at h2 h3 h5
    generalize (2 : ℚ) ^ (-1075 : Int) = t at h4 ⊢
    generalize (2 : ℚ) ^ (-1074 : Int) = t2 at h2 h4
    generalize (2 : ℚ) ^ ulpExponent a = E at h1 h2
    generalize roundMagnitude a = r at h1 ⊢
    linarith

theorem roundMagnitude_lower (a : ℚ) (ha : 0 ≤ a) :
    a * (1 - 2 ^ (-53 : Int)) - 2 ^ (-1075 : Int) ≤ roundMagnitude a := by
  rcases eq_or_lt_of_le ha with h0 | hpos
  · rw [← h0, roundMagnitude_zero]
    have := two_zpow_pos (-1075)
    linarith
  · have h1 := (roundMagnitude_sub_le a).2
    have h2 := zpow_ulpExponent_le a hpos
    have h3 : (2 : ℚ) ^ (-52 : Int) / 2 = 2 ^ (-53 : Int) := half_zpow (-52)
    have h4 : (2 : ℚ) ^ (-1074 : Int) / 2 = 2 ^ (-1075 : Int) := half_zpow (-1074)
    have h5 : a * 2 ^ (-52 : Int) / 2 = a * 2 ^ (-53 : Int) := by rw [← h3]; ring
    generalize (2 : ℚ) ^ (-53 : Int) = u at h3 h5 ⊢
    generalize (2 : ℚ) ^ (-52 : Int) = v at h2 h3 h5
    generalize (2 : ℚ) ^ (-1075 : Int) = t at h4 ⊢
    generalize (2 : ℚ) ^ (-1074 : Int) = t2 at h2 h4
    generalize (2 : ℚ) ^ ulpExponent a = E at h1 h2
    generalize roundMagnitude a = r at h1 ⊢
    linarith

theorem roundMagnitude_upper_of_normal (a : ℚ) (ha : (2 : ℚ) ^ (-1022 : Int) ≤ a) :
    roundMagnitude a ≤ a * (1 + 2 ^ (-53 : Int)) := by
  have h1 := (roundMagnitude_sub_le a).1
  have h2 := zpow_ulpExponent_le_of_normal a ha
  have h3 : (2 : ℚ) ^ (-52 : Int) / 2 = 2 ^ (-53 : Int) := half_zpow (-52)
  have h5 : a * 2 ^ (-52 : Int) / 2 = a * 2 ^ (-53 : Int) := by rw [← h3]; ring
  generalize (2 : ℚ) ^ (-53 : Int) = u at h3 h5 ⊢
  generalize (2 : ℚ) ^ (-52 : Int) = v at h2 h3 h5
  generalize (2 : ℚ) ^ ulpExponent a = E at h1 h2
  generalize roundMagnitude a = r at h1 ⊢
  linarith

theorem roundMagnitude_lower_of_normal (a : ℚ) (ha : (2 : ℚ) ^ (-1022 : Int) ≤ a) :
    a * (1 - 2 ^ (-53 : Int)) ≤ roundMagnitude a := by
  have h1 := (roundMagnitude_sub_le a).2
  have h2 := zpow_ulpExponent_le_of_normal a ha
  have h3 : (2 : ℚ) ^ (-52 : Int) / 2 = 2 ^ (-53 : Int) := half_zpow (-52)
  have h5 : a * 2 ^ (-52 : Int) / 2 = a * 2 ^ (-53 : Int) := by rw [← h3]; ring
  generalize (2 : ℚ) ^ (-53 : Int) = u at h3 h5 ⊢
  generalize (2 : ℚ) ^ (-52 : Int) = v at h2 h3 h5
  generalize (2 : ℚ) ^ ulpExponent a = E at h1 h2
  generalize roundMagnitude a = r at h1 ⊢
  linarith

theorem abs_intCast_normal (w : Int) (hw : w ≠ 0) : (2 : ℚ) ^ (-1022 : Int) ≤ |(w : ℚ)| := by
  have h1 : (1 : ℚ) ≤ |(w : ℚ)| := by
    have : (1 : Int) ≤ |w| := Int.one_le_abs hw
    exact_mod_cast this
  have h2 : (2 : ℚ) ^ (-1022 : Int) ≤ 1 := zpow_le_one_of_nonpos₀ (by norm_num) (by norm_num)
  linarith

/-! ## Throughput estimator -/

theorem hash_eq_of_valid {σ : Type} (tpm : TPM σ) (s : Session σ) (n : Nat) (h : n ≤ 16) :
    hash tpm s (n : Int) =
      match tpm.execute s.state (hashData (n : Int)) with
      | (st, .error err) =>
        (⟨st, s.sent ++ [.hash (hashData (n : Int))]⟩, .error (.callFailed err))
      | (st, .ok micros) => (⟨st, s.sent ++ [.hash (hashData (n : Int))]⟩, .ok micros) := by
  have hc : ¬ ((n : Int) < 0 ∨ (n : Int) > 16) := by omega
  unfold hash
  rw [if_neg hc]

theorem hash_linear {σ : Type} (tpm : TPM σ) (a b : Int) (hdev : LinearTiming tpm a b)
    (s : Session σ) (n : Nat) (h : n ≤ 16) :
    (hash tpm s (n : Int)).2 = .ok (a + b * n) := by
  have h1 := hdev s.state n h
  rw [hash_eq_of_valid tpm s n h]
  rcases h2 : tpm.execute s.state (hashData (n : Int)) with ⟨st, r⟩
  rw [h2] at h1
  simp only at h1
  subst h1
  rfl

theorem linearDevice_linearTiming (a b : Int) : LinearTiming (linearDevice a b) a b := by
  intro st n _
  have h : ((64 * (n : Int)).toNat / 64 : Nat) = n := by omega
  simp [linearDevice, hashData, h]

theorem range17 : List.range 17 = [0, 1, 2, 3, 4, 5, 6, 7, 8, 9, 10, 11, 12, 13, 14, 15, 16] := by
  decide

theorem sampleLoop_ok {σ : Type} (tpm : TPM σ) (a b : Int) (hdev : LinearTiming tpm a b)
    (n : Nat) (h : n ≤ 16) (j : Nat) (s : Session σ) (acc : GoFloat) :
    ∃ total, (sampleLoop tpm n j s acc).2 = .ok total := by
  induction j generalizing s acc with
  | zero => exact ⟨acc, rfl⟩
  | succ j ih =>
    have h1 := hash_linear tpm a b hdev s n h
    unfold sampleLoop
    rcases h2 : hash tpm s (n : Int) with ⟨s1, r⟩
    rw [h2] at h1
    simp only at h1
    subst h1
    exact ih _ _

theorem measureLoop_ok {σ : Type} (tpm : TPM σ) (a b : Int) (hdev : LinearTiming tpm a b)
    (ns : List Nat) (h : ∀ n ∈ ns, n ≤ 16) (s : Session σ) (done : List GoFloat) :
    ∃ results, (measureLoop tpm 10 ns s done).2 = .ok results ∧
      results.length = done.length + ns.length := by
  induction ns generalizing s done with
  | nil => exact ⟨done, rfl, by simp⟩
  | cons n ns ih =>
    obtain ⟨total, h1⟩ :=
      sampleLoop_ok tpm a b hdev n (h n (List.mem_cons_self _ _)) 10 s (.num false 0)
    unfold measureLoop
    rcases h2 : sampleLoop tpm n 10 s (.num false 0) with ⟨s1, r⟩
    rw [h2] at h1
    simp only at h1
    subst h1
    obtain ⟨results, h3, h4⟩ := ih (fun m hm => h m (List.mem_cons_of_mem _ hm)) s1
      (done ++ [GoFloat.div total (GoFloat.ofInt ((10 : Nat) : Int))])
    refine ⟨results, h3, ?_⟩
    rw [h4]
    simp only [List.length_append, List.length_cons, List.length_nil]
    omega

theorem getHashPerformance_of_results {σ : Type} (regression : Regression) (tpm : TPM σ)
    (s : Session σ) (results : List GoFloat)
    (h : (measureLoop tpm 10 (List.range 17) s []).2 = .ok results) :
    (getHashPerformance regression tpm s).2 =
      .ok (GoFloat.div (.num false 1000000000) (regression (trainingData results))) := by
  unfold getHashPerformance
  rcases h3 : measureLoop tpm 10 (List.range 17) s [] with ⟨s1, r⟩
  rw [h3] at h
  simp only at h
  subst h
  rfl

theorem getHashPerformance_ok {σ : Type} (regression : Regression) (tpm : TPM σ) (a b : Int)
    (hdev : LinearTiming tpm a b) (s : Session σ) :
    ∃ results : List GoFloat, results.length = 17 ∧
      (measureLoop tpm 10 (List.range 17) s []).2 = .ok results ∧
      (getHashPerformance regression tpm s).2 =
        .ok (GoFloat.div (.num false 1000000000) (regression (trainingData results))) := by
  have hr : ∀ n ∈ List.range 17, n ≤ 16 := by
    intro n hn
    have := List.mem_range.mp hn
    omega
  obtain ⟨results, h1, h2⟩ := measureLoop_ok tpm a b hdev (List.range 17) hr s []
  exact ⟨results, by simpa using h2, h1, getHashPerformance_of_results regression tpm s results h1⟩

/-- C2, as stated, fails: the device timing `100 - 3 * n` microseconds (slope `b = -3 ≤ 0`,
elapsed times 100, 97, ..., 52) never fails, and `getHashPerformance` returns no error,
whatever the regression library fits. -/
theorem getHashPerformance_negative_slope_counterexample :
    (-3 : Int) ≤ 0 ∧ LinearTiming (linearDevice 100 (-3)) 100 (-3) ∧
      ∀ regression : Regression,
        succeeded (getHashPerformance regression (linearDevice 100 (-3)) ⟨0, []⟩).2 = true := by
  refine ⟨by decide, linearDevice_linearTiming 100 (-3), ?_⟩
  intro regression
  obtain ⟨results, _, _, h⟩ := getHashPerformance_ok regression (linearDevice 100 (-3)) 100 (-3)
    (linearDevice_linearTiming 100 (-3)) ⟨0, []⟩
  rw [h]
  rfl

/-- C2, amended. On a device that times every hash over `n` blocks at exactly `a + b * n`
microseconds with `b ≤ 0` (no failure), `getHashPerformance` returns no error: it has no
check of the fitted slope and returns `1000000000` divided in `float64` by the slope the
regression fits to the 17 means, whatever that slope is.  A non-zero fitted slope gives a
rate of the same sign (negative for a negative slope), a zero slope gives an infinite
rate. -/
theorem getHashPerformance_nonpositive_slope {σ : Type} (regression : Regression)
    (tpm : TPM σ) (s : Session σ) (a b : Int) (_hb : b ≤ 0) (hdev : LinearTiming tpm a b) :
    ∃ results : List GoFloat, results.length = 17 ∧
      (measureLoop tpm 10 (List.range 17) s []).2 = .ok results ∧
      (getHashPerformance regression tpm s).2 =
        .ok (GoFloat.div (.num false 1000000000) (regression (trainingData results))) ∧
      (∀ sign slope, regression (trainingData results) = .num sign slope → slope ≠ 0 →
        (getHashPerformance regression tpm s).2 =
          .ok (round64 sign (1000000000 / slope))) ∧
      (∀ sign, regression (trainingData results) = .num sign 0 →
        (getHashPerformance regression tpm s).2 = .ok (.inf sign)) := by
  obtain ⟨results, h1, h2, h3⟩ := getHashPerformance_ok regression tpm a b hdev s
  refine ⟨results, h1, h2, h3, ?_, ?_⟩
  · intro sign slope hfit hne
    rw [h3, hfit]
    simp [GoFloat.div, hne]
  · intro sign hfit
    rw [h3, hfit]
    simp [GoFloat.div]

theorem getHashPerformance_nonpositive_slope_witness :
    (-3 : Int) ≤ 0 ∧ LinearTiming (linearDevice 100 (-3)) 100 (-3) ∧
      ∃ rate, (getHashPerformance leastSquares (linearDevice 100 (-3)) ⟨0, []⟩).2 = .ok rate := by
  obtain ⟨results, _, _, h, _⟩ := getHashPerformance_nonpositive_slope leastSquares
    (linearDevice 100 (-3)) ⟨0, []⟩ 100 (-3) (by decide) (linearDevice_linearTiming 100 (-3))
  exact ⟨by decide, linearDevice_linearTiming 100 (-3), _, h⟩

theorem not_overflow_natCast (n : Nat) (h : n < 2 ^ 53) : ¬ (2 : ℚ) ^ 1024 ≤ (n : ℚ) := by
  have h1 : (n : ℚ) < (2 : ℚ) ^ 53 := by exact_mod_cast h
  have h2 : (2 : ℚ) ^ 53 ≤ (2 : ℚ) ^ 1024 :=
    pow_le_pow_right₀ (by norm_num : (1 : ℚ) ≤ 2) (by norm_num : 53 ≤ 1024)
  exact not_le.mpr (lt_of_lt_of_le h1 h2)

theorem round64_natCast (n : Nat) (h : n < 2 ^ 53) : round64 false (n : ℚ) = .num false n := by
  unfold round64
  rw [roundMagnitude_natCast n h, if_neg (not_overflow_natCast n h)]

theorem ofInt_natCast (n : Nat) (h : n < 2 ^ 53) : GoFloat.ofInt (n : Int) = .num false n := by
  unfold GoFloat.ofInt
  have h1 : decide ((n : Int) < 0) = false := by simp
  have h2 : |((n : Int) : ℚ)| = (n : ℚ) := by simp
  rw [h1, h2]
  exact round64_natCast n h

theorem add_natCast (c t : Nat) (h : c + t < 2 ^ 53) :
    GoFloat.add (.num false c) (.num false t) = .num false ((c + t : Nat) : ℚ) := by
  have hnn : (0 : ℚ) ≤ (c : ℚ) + (t : ℚ) := by positivity
  unfold GoFloat.add
  simp only [signed, Bool.false_eq_true, if_false, Bool.and_false]
  split
  next h0 =>
    push_cast
    rw [h0]
  next h0 =>
    have h1 : decide ((c : ℚ) + (t : ℚ) < 0) = false := by simpa using hnn
    rw [h1, abs_of_nonneg hnn]
    have := round64_natCast (c + t) h
    push_cast at this ⊢
    exact this

theorem div_natCast (c k : Nat) (hk : 0 < k) (hc : c < 2 ^ 53) :
    GoFloat.div (.num false ((c * k : Nat) : ℚ)) (.num false (k : ℚ)) = .num false (c : ℚ) := by
  have hk0 : (k : ℚ) ≠ 0 := by exact_mod_cast (Nat.pos_iff_ne_zero.mp hk)
  simp only [GoFloat.div, if_neg hk0, Bool.xor_false]
  have h1 : ((c * k : Nat) : ℚ) / (k : ℚ) = (c : ℚ) := by
    push_cast
    field_simp
  rw [h1]
  exact round64_natCast c hc

theorem sampleLoop_linear {σ : Type} (tpm : TPM σ) (a b : Int) (hdev : LinearTiming tpm a b)
    (n : Nat) (h : n ≤ 16) (t : Nat) (ht : a + b * n = (t : Int)) (j : Nat) (s : Session σ)
    (c : Nat) (hc : c + j * t < 2 ^ 53) :
    (sampleLoop tpm n j s (.num false c)).2 = .ok (.num false ((c + j * t : Nat) : ℚ)) := by
  induction j generalizing s c with
  | zero => simp [sampleLoop]
  | succ j ih =>
    have h1 := hash_linear tpm a b hdev s n h
    have hct : c + t < 2 ^ 53 := by nlinarith
    have ht53 : t < 2 ^ 53 := by omega
    unfold sampleLoop
    rcases h2 : hash tpm s (n : Int) with ⟨s1, r⟩
    rw [h2] at h1
    simp only at h1
    subst h1
    simp only
    rw [ht, ofInt_natCast t ht53, add_natCast c t hct, ih s1 (c + t) (by nlinarith)]
    congr 3
    ring

theorem measureLoop_linear {σ : Type} (tpm : TPM σ) (a b : Int) (hdev : LinearTiming tpm a b)
    (time : Nat → Nat) (ns : List Nat)
    (h : ∀ n ∈ ns, n ≤ 16 ∧ a + b * n = (time n : Int) ∧ 10 * time n < 2 ^ 53)
    (s : Session σ) (done : List GoFloat) :
    (measureLoop tpm 10 ns s done).2 =
      .ok (done ++ ns.map (fun n => GoFloat.num false (time n : ℚ))) := by
  induction ns generalizing s done with
  | nil => simp [measureLoop]
  | cons n ns ih =>
    obtain ⟨h16, ht, hlt⟩ := h n (List.mem_cons_self _ _)
    have h1 := sampleLoop_linear tpm a b hdev n h16 (time n) ht 10 s 0 (by omega)
    rw [Nat.cast_zero] at h1
    unfold measureLoop
    rcases h2 : sampleLoop tpm n 10 s (.num false 0) with ⟨s1, r⟩
    rw [h2] at h1
    simp only at h1
    subst h1
    simp only
    rw [ih (fun m hm => h m (List.mem_cons_of_mem _ hm))]
    have h3 : GoFloat.div (.num false ((0 + 10 * time n : Nat) : ℚ))
        (GoFloat.ofInt ((10 : Nat) : Int)) = .num false (time n : ℚ) := by
      rw [ofInt_natCast 10 (by norm_num), show 0 + 10 * time n = time n * 10 by ring]
      exact div_natCast (time n) 10 (by norm_num) (by omega)
    rw [h3]
    simp

theorem trainingData_eq (results : List GoFloat) (h : results.length < 2 ^ 53) :
    trainingData results = results.enum.map (fun p => (p.2, GoFloat.num false (p.1 : ℚ))) := by
  unfold trainingData
  apply List.map_congr_left
  intro p hp
  have := List.fst_lt_of_mem_enum hp
  rw [ofInt_natCast p.1 (by omega)]

theorem trainingData_one_plus :
    trainingData ((List.range 17).map
      (fun n => GoFloat.num false (((fun n => 1 + n) n : Nat) : ℚ))) =
      [(.num false 1, .num false 0), (.num false 2, .num false 1), (.num false 3, .num false 2),
        (.num false 4, .num false 3), (.num false 5, .num false 4), (.num false 6, .num false 5),
        (.num false 7, .num false 6), (.num false 8, .num false 7), (.num false 9, .num false 8),
        (.num false 10, .num false 9), (.num false 11, .num false 10),
        (.num false 12, .num false 11), (.num false 13, .num false 12),
        (.num false 14, .num false 13), (.num false 15, .num false 14),
        (.num false 16, .num false 15), (.num false 17, .num false 16)] := by
  rw [trainingData_eq _ (by rw [List.length_map, List.length_range]; norm_num), range17]
  simp [List.enum, List.enumFrom]

theorem leastSquares_one_plus :
    leastSquares (trainingData ((List.range 17).map
      (fun n => GoFloat.num false (((fun n => 1 + n) n : Nat) : ℚ)))) = .num false 1 := by
  rw [trainingData_one_plus]
  have h1 := round64_natCast 1 (by norm_num)
  rw [Nat.cast_one] at h1
  simp only [leastSquares, List.map, List.all, List.sum_cons, List.sum_nil, List.length,
    GoFloat.value, GoFloat.isFinite, signed]
  norm_num
  exact h1

/-- C3, the code at a failing input: a device whose marginal cost is 1 microsecond per block
(`elapsed(n) = 1 + n` microseconds) hashes `10^6` blocks per second, and
`getHashPerformance` (with the least-squares slope 1 of its 17 means) returns `10^9`. -/
theorem getHashPerformance_unit_mismatch :
    LinearTiming (linearDevice 1 1) 1 1 ∧
      (getHashPerformance leastSquares (linearDevice 1 1) ⟨0, []⟩).2 =
        .ok (.num false 1000000000) ∧
      (1000000000 : ℚ) ≠ 10 ^ 6 / 1 := by
  refine ⟨linearDevice_linearTiming 1 1, ?_, by norm_num⟩
  have hm := measureLoop_linear (linearDevice 1 1) 1 1 (linearDevice_linearTiming 1 1)
    (fun n => 1 + n) (List.range 17)
    (fun n hn => by
      have := List.mem_range.mp hn
      exact ⟨by omega, by push_cast; ring, by show 10 * (1 + n) < 2 ^ 53; omega⟩) ⟨0, []⟩ []
  rw [List.nil_append] at hm
  rw [getHashPerformance_of_results leastSquares (linearDevice 1 1) ⟨0, []⟩ _ hm,
    leastSquares_one_plus]
  have h1 := div_natCast 1000000000 1 (by norm_num) (by norm_num)
  simp only [Nat.mul_one, Nat.cast_one, Nat.cast_ofNat] at h1
  rw [h1]

/-- The unit mismatch does not depend on how the regression rounds: on the device timing
`1 + n` microseconds, every fit whose slope lies between 1/2 and 2 microseconds per block
(the true slope is 1) makes `getHashPerformance` return a rate of at least `2^28`, far above
the `10^6` blocks per second the device hashes. -/
theorem getHashPerformance_rate_of_slope (regression : Regression) (c : ℚ)
    (hfit : regression (trainingData ((List.range 17).map
      (fun n => GoFloat.num false (((fun n => 1 + n) n : Nat) : ℚ)))) = .num false c)
    (h1 : 1 / 2 ≤ c) (h2 : c ≤ 2) :
    ∃ r, (getHashPerformance regression (linearDevice 1 1) ⟨0, []⟩).2 = .ok (.num false r) ∧
      (2 : ℚ) ^ (28 : Int) ≤ r := by
  have hm := measureLoop_linear (linearDevice 1 1) 1 1 (linearDevice_linearTiming 1 1)
    (fun n => 1 + n) (List.range 17)
    (fun n hn => by
      have := List.mem_range.mp hn
      exact ⟨by omega, by push_cast; ring, by show 10 * (1 + n) < 2 ^ 53; omega⟩) ⟨0, []⟩ []
  rw [List.nil_append] at hm
  have hc : c ≠ 0 := by
    intro h0
    rw [h0] at h1
    norm_num at h1
  have hcpos : (0 : ℚ) < c := by linarith
  have hlo : (2 : ℚ) ^ (28 : Int) ≤ 1000000000 / c := by
    rw [le_div_iff₀ hcpos]
    have : (2 : ℚ) ^ (28 : Int) = 268435456 := by norm_num
    rw [this]
    linarith
  have hhi : 1000000000 / c ≤ (2 : ℚ) ^ (31 : Int) := by
    rw [div_le_iff₀ hcpos]
    have : (2 : ℚ) ^ (31 : Int) = 2147483648 := by norm_num
    rw [this]
    linarith
  have hr1 := le_roundMagnitude 28 (by norm_num) _ hlo
  have hr2 := roundMagnitude_le 31 (by norm_num) _ (le_of_lt (div_pos (by norm_num) hcpos)) hhi
  have hbig : ¬ (2 : ℚ) ^ 1024 ≤ roundMagnitude (1000000000 / c) := by
    have h3 : (2 : ℚ) ^ (31 : Int) < 2 ^ 1024 := by
      rw [← zpow_natCast]
      exact zpow_lt_zpow_right₀ (by norm_num) (by norm_num)
    exact not_le.mpr (lt_of_le_of_lt hr2 h3)
  refine ⟨roundMagnitude (1000000000 / c), ?_, hr1⟩
  rw [getHashPerformance_of_results regression (linearDevice 1 1) ⟨0, []⟩ _ hm, hfit]
  simp only [GoFloat.div, if_neg hc, Bool.xor_false, round64, if_neg hbig]

/-! ## Device failures during the measurement -/

theorem runCalls_append {σ : Type} (tpm : TPM σ) (l1 l2 : List (List UInt8)) (s : Session σ) :
    runCalls tpm (l1 ++ l2) s =
      if (runCalls tpm l1 s).2 then runCalls tpm l2 (runCalls tpm l1 s).1
      else ((runCalls tpm l1 s).1, false) := by
  induction l1 generalizing s with
  | nil => simp [runCalls]
  | cons d ds ih =>
    simp only [List.cons_append, runCalls]
    rcases h : tpm.execute s.state d with ⟨st, r⟩
    cases r with
    | error e => simp
    | ok t => simp [ih]

theorem sampleLoop_runCalls {σ : Type} (tpm : TPM σ) (n : Nat) (h : n ≤ 16) (j : Nat)
    (s : Session σ) (acc : GoFloat) :
    (sampleLoop tpm n j s acc).1 = (runCalls tpm (List.replicate j (hashData (n : Int))) s).1 ∧
      succeeded (sampleLoop tpm n j s acc).2 =
        (runCalls tpm (List.replicate j (hashData (n : Int))) s).2 := by
  induction j generalizing s acc with
  | zero => simp [sampleLoop, runCalls, succeeded]
  | succ j ih =>
    simp only [sampleLoop, List.replicate_succ, runCalls]
    rw [hash_eq_of_valid tpm s n h]
    rcases h2 : tpm.execute s.state (hashData (n : Int)) with ⟨st, r⟩
    cases r with
    | error e => simp [succeeded]
    | ok t => exact ih _ _

theorem measureLoop_runCalls {σ : Type} (tpm : TPM σ) (ns : List Nat) (h : ∀ n ∈ ns, n ≤ 16)
    (s : Session σ) (done : List GoFloat) :
    (measureLoop tpm 10 ns s done).1 =
        (runCalls tpm (ns.flatMap (fun n => List.replicate 10 (hashData (n : Int)))) s).1 ∧
      succeeded (measureLoop tpm 10 ns s done).2 =
        (runCalls tpm (ns.flatMap (fun n => List.replicate 10 (hashData (n : Int)))) s).2 := by
  induction ns generalizing s done with
  | nil => simp [measureLoop, runCalls, succeeded]
  | cons n ns ih =>
    have h1 := sampleLoop_runCalls tpm n (h n (List.mem_cons_self _ _)) 10 s (.num false 0)
    rw [measureLoop, List.flatMap_cons, runCalls_append]
    generalize List.replicate 10 (hashData (n : Int)) = bufs at h1 ⊢
    rcases h2 : sampleLoop tpm n 10 s (.num false 0) with ⟨s1, r⟩
    rw [h2] at h1
    obtain ⟨h3, h4⟩ := h1
    simp only at h3 h4
    cases r with
    | error e =>
      simp only [succeeded] at h4
      rw [← h4, ← h3]
      simp [succeeded]
    | ok t =>
      simp only [succeeded] at h4
      rw [← h4, ← h3]
      simp only [if_true]
      exact ih (fun m hm => h m (List.mem_cons_of_mem _ hm)) _ _

theorem getHashPerformance_runCalls {σ : Type} (regression : Regression) (tpm : TPM σ)
    (s : Session σ) :
    (getHashPerformance regression tpm s).1 = (runCalls tpm schedule s).1 ∧
      succeeded (getHashPerformance regression tpm s).2 = (runCalls tpm schedule s).2 := by
  have hr : ∀ n ∈ List.range 17, n ≤ 16 := by
    intro n hn
    have := List.mem_range.mp hn
    omega
  have h1 := measureLoop_runCalls tpm (List.range 17) hr s []
  unfold getHashPerformance
  rcases h2 : measureLoop tpm 10 (List.range 17) s [] with ⟨s1, r⟩
  rw [h2] at h1
  cases r with
  | error e => exact h1
  | ok t => exact h1

theorem responses_length {σ : Type} (tpm : TPM σ) (bufs : List (List UInt8)) (st : σ) :
    (responses tpm st bufs).length = bufs.length := by
  induction bufs generalizing st with
  | nil => rfl
  | cons d ds ih => simp [responses, ih]

theorem runCalls_first_failure {σ : Type} (tpm : TPM σ) (bufs : List (List UInt8))
    (s : Session σ) (k : Nat)
    (hok : ∀ j, j < k → ∃ t, (responses tpm s.state bufs)[j]? = some (.ok t))
    (hfail : ∃ e, (responses tpm s.state bufs)[k]? = some (.error e)) :
    (runCalls tpm bufs s).1.sent = s.sent ++ (bufs.take (k + 1)).map .hash ∧
      (runCalls tpm bufs s).2 = false := by
  induction bufs generalizing s k with
  | nil =>
    obtain ⟨e, he⟩ := hfail
    simp [responses] at he
  | cons d ds ih =>
    rcases h : tpm.execute s.state d with ⟨st, r⟩
    cases k with
    | zero =>
      obtain ⟨e, he⟩ := hfail
      simp only [responses, h, List.getElem?_cons_zero, Option.some.injEq] at he
      subst he
      simp [runCalls, h]
    | succ k =>
      obtain ⟨t, ht⟩ := hok 0 (Nat.succ_pos k)
      simp only [responses, h, List.getElem?_cons_zero, Option.some.injEq] at ht
      subst ht
      have hok2 : ∀ j, j < k → ∃ t, (responses tpm st ds)[j]? = some (.ok t) := by
        intro j hj
        obtain ⟨t2, ht2⟩ := hok (j + 1) (Nat.succ_lt_succ hj)
        simp only [responses, h, List.getElem?_cons_succ] at ht2
        exact ⟨t2, ht2⟩
      have hfail2 : ∃ e, (responses tpm st ds)[k]? = some (.error e) := by
        obtain ⟨e, he⟩ := hfail
        simp only [responses, h, List.getElem?_cons_succ] at he
        exact ⟨e, he⟩
      have h5 := ih ⟨st, s.sent ++ [.hash d]⟩ k hok2 hfail2
      simp only [runCalls, h]
      refine ⟨?_, h5.2⟩
      rw [h5.1]
      simp

theorem schedule_length : schedule.length = 170 := by
  simp only [schedule, List.length_flatMap, List.length_replicate, range17]
  rfl

theorem responses_failingDevice (k : Nat) (bufs : List (List UInt8)) (st j : Nat)
    (hj : j < bufs.length) :
    (responses (failingDevice k) st bufs)[j]? =
      some (if st + j = k then .error "TPM_RC_FAILURE" else .ok 7) := by
  induction bufs generalizing st j with
  | nil => simp at hj
  | cons d ds ih =>
    cases j with
    | zero => simp [responses, failingDevice]
    | succ j =>
      have hj2 : j < ds.length := by simpa using hj
      have h := ih (st + 1) j hj2
      have e : st + 1 + j = st + (j + 1) := by omega
      rw [e] at h
      simpa [responses, failingDevice] using h

/-- C10. The measurement plan is 170 hash calls, 10 consecutive calls for each block count
0, 1, ..., 16.  If the `i`-th call of the plan (`i` counted from 1) is the first one the device
fails, `getHashPerformance` returns an error instead of a rate and has sent exactly the first
`i` hash commands of the plan to the device: the failed call is not repeated and no later
call is made. -/
theorem getHashPerformance_device_failure {σ : Type} (regression : Regression) (tpm : TPM σ)
    (s : Session σ) (i : Nat) (hi : 1 ≤ i)
    (hok : ∀ j, j + 1 < i → ∃ t, (responses tpm s.state schedule)[j]? = some (.ok t))
    (hfail : ∃ e, (responses tpm s.state schedule)[i - 1]? = some (.error e)) :
    (∃ err, (getHashPerformance regression tpm s).2 = .error err) ∧
      (getHashPerformance regression tpm s).1.sent = s.sent ++ (schedule.take i).map .hash ∧
      (getHashPerformance regression tpm s).1.sent.length = s.sent.length + i := by
  obtain ⟨k, rfl⟩ : ∃ k, i = k + 1 := ⟨i - 1, by omega⟩
  simp only [Nat.add_sub_cancel] at hfail
  have hk : k < 170 := by
    obtain ⟨e, he⟩ := hfail
    have h1 := (List.getElem?_eq_some_iff.mp he).1
    rw [responses_length, schedule_length] at h1
    exact h1
  have h2 := runCalls_first_failure tpm schedule s k
    (fun j hj => hok j (Nat.succ_lt_succ hj)) hfail
  obtain ⟨h3, h4⟩ := getHashPerformance_runCalls regression tpm s
  refine ⟨?_, ?_, ?_⟩
  · rw [h2.2] at h4
    cases h5 : (getHashPerformance regression tpm s).2 with
    | error err => exact ⟨err, rfl⟩
    | ok rate =>
      rw [h5] at h4
      simp [succeeded] at h4
  · rw [h3, h2.1]
  · rw [h3, h2.1, List.length_append, List.length_map, List.length_take, schedule_length]
    omega

theorem getHashPerformance_device_failure_witness :
    (∃ err, (getHashPerformance leastSquares (failingDevice 42) ⟨0, []⟩).2 = .error err) ∧
      (getHashPerformance leastSquares (failingDevice 42) ⟨0, []⟩).1.sent.length = 43 := by
  have h := getHashPerformance_device_failure leastSquares (failingDevice 42) ⟨0, []⟩ 43
    (by decide)
    (fun j hj => by
      have hj2 : j < schedule.length := by
        rw [schedule_length]
        omega
      rw [responses_failingDevice 42 schedule 0 j hj2]
      have hne : ¬ (0 + j = 42) := by omega
      exact ⟨7, by rw [if_neg hne]⟩)
    ⟨"TPM_RC_FAILURE", by
      have hj2 : 43 - 1 < schedule.length := by
        rw [schedule_length]
        decide
      rw [responses_failingDevice 42 schedule 0 (43 - 1) hj2]
      rfl⟩
  exact ⟨h.1, by simpa using h.2.2⟩

/-! ## Ordering of the rows -/

theorem insertLeft_perm {α : Type} (lt : α → α → Bool) (x : α) (l : List α) :
    (insertLeft lt x l).Perm (x :: l) := by
  induction l with
  | nil => exact List.Perm.refl _
  | cons y ys ih =>
    unfold insertLeft
    split
    · exact (List.Perm.cons y ih).trans (List.Perm.swap x y ys)
    · exact List.Perm.refl _

theorem foldl_insertLeft_perm {α : Type} (lt : α → α → Bool) (l acc : List α) :
    (l.foldl (fun sortedRev x => insertLeft lt x sortedRev) acc).Perm (l.reverse ++ acc) := by
  induction l generalizing acc with
  | nil => exact List.Perm.refl _
  | cons x xs ih =>
    simp only [List.foldl_cons, List.reverse_cons, List.append_assoc, List.singleton_append]
    exact (ih _).trans (List.Perm.append_left _ (insertLeft_perm lt x acc))

theorem sortSlice_perm {α : Type} (lt : α → α → Bool) (l : List α) :
    (sortSlice lt l).Perm l := by
  unfold sortSlice
  have h := foldl_insertLeft_perm lt l []
  rw [List.append_nil] at h
  exact (List.reverse_perm _).trans (h.trans (List.reverse_perm _))

theorem insertLeft_descending {α κ : Type} [LinearOrder κ] (key : α → κ) (lt : α → α → Bool)
    (hlt : ∀ x y, lt x y = true ↔ key x < key y) (x : α) (l : List α)
    (hl : l.Pairwise (fun u v => key v ≤ key u)) :
    (insertLeft lt x l).Pairwise (fun u v => key v ≤ key u) := by
  induction l with
  | nil => simp [insertLeft]
  | cons y ys ih =>
    rw [List.pairwise_cons] at hl
    unfold insertLeft
    split
    next h =>
      have hxy : key x < key y := (hlt x y).mp h
      rw [List.pairwise_cons]
      refine ⟨?_, ih hl.2⟩
      intro z hz
      rcases List.mem_cons.mp ((insertLeft_perm lt x ys).mem_iff.mp hz) with hzx | hzy
      · rw [hzx]
        exact le_of_lt hxy
      · exact hl.1 z hzy
    next h =>
      have hyx : key y ≤ key x := not_lt.mp (fun hc => h ((hlt x y).mpr hc))
      rw [List.pairwise_cons]
      refine ⟨?_, List.pairwise_cons.mpr hl⟩
      intro z hz
      rcases List.mem_cons.mp hz with hzy | hzy
      · rw [hzy]
        exact hyx
      · exact le_trans (hl.1 z hzy) hyx

theorem foldl_insertLeft_descending {α κ : Type} [LinearOrder κ] (key : α → κ)
    (lt : α → α → Bool) (hlt : ∀ x y, lt x y = true ↔ key x < key y) (l acc : List α)
    (hacc : acc.Pairwise (fun u v => key v ≤ key u)) :
    (l.foldl (fun sortedRev x => insertLeft lt x sortedRev) acc).Pairwise
      (fun u v => key v ≤ key u) := by
  induction l generalizing acc with
  | nil => exact hacc
  | cons x xs ih => exact ih _ (insertLeft_descending key lt hlt x acc hacc)

theorem sortSlice_sorted {α κ : Type} [LinearOrder κ] (key : α → κ) (lt : α → α → Bool)
    (hlt : ∀ x y, lt x y = true ↔ key x < key y) (l : List α) :
    (sortSlice lt l).Pairwise (fun u v => key u ≤ key v) := by
  unfold sortSlice
  rw [List.pairwise_reverse]
  exact foldl_insertLeft_descending key lt hlt l [] List.Pairwise.nil

theorem less_byName (x y : Parameters) :
    less byName x y = true ↔ x.FriendlyName < y.FriendlyName := by
  by_cases h : x.FriendlyName = y.FriendlyName
  · simp [less, h]
  · simp [less, h]

theorem less_bySigSize (x y : Parameters) :
    less bySigSize x y = true ↔ x.SigSize < y.SigSize := by
  simp [less, byName, bySigSize]

theorem less_bySigWork (x y : Parameters) :
    less bySigWork x y = true ↔ x.SigWork < y.SigWork := by
  simp [less, byName, bySigSize, bySigWork]

theorem less_byKeygenWork (x y : Parameters) :
    less byKeygenWork x y = true ↔ x.KeygenWork < y.KeygenWork := by
  simp [less, byName, bySigSize, bySigWork, byKeygenWork]

/-- C5. For every catalog and each of the four orderings, the rows `printEstimates` emits
are the rows of a rearrangement of the catalog (one row per entry) that is non-decreasing in
the selected key: `byKeygenWork` in `KeygenWork`, `bySigWork` in `SigWork`, `bySigSize` in
`SigSize`, `byName` lexicographically in `FriendlyName`. -/
theorem printEstimates_sorted (catalog : List Parameters) (info : tpmInfo) (hps : GoFloat)
    (sortBy : estimateOrdering) :
    ∃ sorted : List Parameters,
      sorted.Perm catalog ∧
      printEstimates catalog info hps sortBy = sorted.map (estimateRow hps) ∧
      (printEstimates catalog info hps sortBy).length = catalog.length ∧
      (sortBy = byKeygenWork → sorted.Pairwise (fun u v => u.KeygenWork ≤ v.KeygenWork)) ∧
      (sortBy = bySigWork → sorted.Pairwise (fun u v => u.SigWork ≤ v.SigWork)) ∧
      (sortBy = bySigSize → sorted.Pairwise (fun u v => u.SigSize ≤ v.SigSize)) ∧
      (sortBy = byName → sorted.Pairwise (fun u v => u.FriendlyName ≤ v.FriendlyName)) := by
  refine ⟨sortSlice (less sortBy) catalog, sortSlice_perm _ _, rfl, ?_, ?_, ?_, ?_, ?_⟩
  · simp [printEstimates, (sortSlice_perm (less sortBy) catalog).length_eq]
  · rintro rfl
    exact sortSlice_sorted (fun u => u.KeygenWork) _ less_byKeygenWork catalog
  · rintro rfl
    exact sortSlice_sorted (fun u => u.SigWork) _ less_bySigWork catalog
  · rintro rfl
    exact sortSlice_sorted (fun u => u.SigSize) _ less_bySigSize catalog
  · rintro rfl
    exact sortSlice_sorted (fun u => u.FriendlyName) _ less_byName catalog

theorem sortSlice_scenario : sortSlice (less byKeygenWork) [schemeA, schemeB] = [schemeB, schemeA] := by
  decide

theorem printEstimates_sorted_witness :
    printEstimates [schemeA, schemeB] noInfo (.num false 10) byKeygenWork =
        [estimateRow (.num false 10) schemeB, estimateRow (.num false 10) schemeA] ∧
      ∃ sorted : List Parameters, sorted.Perm [schemeA, schemeB] ∧
        printEstimates [schemeA, schemeB] noInfo (.num false 10) byKeygenWork =
          sorted.map (estimateRow (.num false 10)) ∧
        sorted.Pairwise (fun u v => u.KeygenWork ≤ v.KeygenWork) := by
  refine ⟨?_, ?_⟩
  · unfold printEstimates
    rw [sortSlice_scenario]
    rfl
  · obtain ⟨sorted, hperm, hrows, _, hkey, _⟩ :=
      printEstimates_sorted [schemeA, schemeB] noInfo (.num false 10) byKeygenWork
    exact ⟨sorted, hperm, hrows, hkey rfl⟩

/-! ## Projected durations -/

theorem estimate_num (work : Int) (h : ℚ) (hh : h ≠ 0) :
    estimate work (.num false h) =
      if (2 : ℚ) ^ 1024 ≤ workMagnitude work then none
      else if (2 : ℚ) ^ 1024 ≤ rateMagnitude work h then none
      else if (2 : ℚ) ^ 1024 ≤ nanosMagnitude work h then none
      else if fitsInt64 (withSign work ⌊nanosMagnitude work h⌋) then
        some (withSign work ⌊nanosMagnitude work h⌋)
      else none := by
  unfold estimate GoFloat.ofInt round64
  by_cases h1 : (2 : ℚ) ^ 1024 ≤ workMagnitude work
  · have h1' : (2 : ℚ) ^ 1024 ≤ roundMagnitude |(work : ℚ)| := h1
    simp [h1, h1', GoFloat.div, GoFloat.mul, GoFloat.toInt64]
  · have h1' : ¬ (2 : ℚ) ^ 1024 ≤ roundMagnitude |(work : ℚ)| := h1
    rw [if_neg h1, if_neg h1']
    simp only [GoFloat.div, if_neg hh, round64, Bool.xor_false]
    by_cases h2 : (2 : ℚ) ^ 1024 ≤ rateMagnitude work h
    · have h2' : (2 : ℚ) ^ 1024 ≤ roundMagnitude (roundMagnitude |(work : ℚ)| / h) := h2
      simp [h2, h2', GoFloat.mul, GoFloat.toInt64]
    · have h2' : ¬ (2 : ℚ) ^ 1024 ≤ roundMagnitude (roundMagnitude |(work : ℚ)| / h) := h2
      rw [if_neg h2, if_neg h2']
      simp only [GoFloat.mul, round64, Bool.xor_false]
      by_cases h3 : (2 : ℚ) ^ 1024 ≤ nanosMagnitude work h
      · have h3' : (2 : ℚ) ^ 1024 ≤
            roundMagnitude (roundMagnitude (roundMagnitude |(work : ℚ)| / h) * 1000000000) := h3
        simp [h3, h3', GoFloat.toInt64]
      · have h3' : ¬ (2 : ℚ) ^ 1024 ≤
            roundMagnitude (roundMagnitude (roundMagnitude |(work : ℚ)| / h) * 1000000000) := h3
        rw [if_neg h3, if_neg h3']
        simp only [GoFloat.toInt64, withSign, nanosMagnitude, rateMagnitude, workMagnitude,
          decide_eq_true_eq]

theorem estimate_eq_some (work : Int) (h : ℚ) (hh : h ≠ 0) (d : Int)
    (hd : estimate work (.num false h) = some d) :
    workMagnitude work < 2 ^ 1024 ∧ rateMagnitude work h < 2 ^ 1024 ∧
      nanosMagnitude work h < 2 ^ 1024 ∧ d = withSign work ⌊nanosMagnitude work h⌋ ∧
      fitsInt64 d = true := by
  rw [estimate_num work h hh] at hd
  split at hd
  · exact absurd hd (by simp)
  · split at hd
    · exact absurd hd (by simp)
    · split at hd
      · exact absurd hd (by simp)
      · split at hd
        next h1 h2 h3 h4 =>
          have e : withSign work ⌊nanosMagnitude work h⌋ = d := Option.some.inj hd
          rw [e] at h4
          exact ⟨not_le.mp h1, not_le.mp h2, not_le.mp h3, e.symm, h4⟩
        · exact absurd hd (by simp)

theorem estimate_of_lt (work : Int) (h : ℚ) (hh : h ≠ 0)
    (h1 : workMagnitude work < 2 ^ 1024) (h2 : rateMagnitude work h < 2 ^ 1024)
    (h3 : nanosMagnitude work h < 2 ^ 1024)
    (h4 : fitsInt64 (withSign work ⌊nanosMagnitude work h⌋) = true) :
    estimate work (.num false h) = some (withSign work ⌊nanosMagnitude work h⌋) := by
  rw [estimate_num work h hh, if_neg (not_le.mpr h1), if_neg (not_le.mpr h2),
    if_neg (not_le.mpr h3), if_pos h4]

theorem workMagnitude_nonneg (work : Int) : 0 ≤ workMagnitude work :=
  roundMagnitude_nonneg _ (abs_nonneg _)

theorem rateMagnitude_nonneg (work : Int) (h : ℚ) (hh : 0 < h) : 0 ≤ rateMagnitude work h :=
  roundMagnitude_nonneg _ (div_nonneg (workMagnitude_nonneg work) (le_of_lt hh))

theorem nanosMagnitude_nonneg (work : Int) (h : ℚ) (hh : 0 < h) : 0 ≤ nanosMagnitude work h :=
  roundMagnitude_nonneg _ (mul_nonneg (rateMagnitude_nonneg work h hh) (by norm_num))

theorem workMagnitude_upper (work : Int) :
    workMagnitude work ≤ |(work : ℚ)| * (1 + 2 ^ (-53 : Int)) := by
  unfold workMagnitude
  by_cases hw : work = 0
  · subst hw
    simp [roundMagnitude_zero]
  · exact roundMagnitude_upper_of_normal _ (abs_intCast_normal work hw)

theorem workMagnitude_lower (work : Int) :
    |(work : ℚ)| * (1 - 2 ^ (-53 : Int)) ≤ workMagnitude work := by
  unfold workMagnitude
  by_cases hw : work = 0
  · subst hw
    simp [roundMagnitude_zero]
  · exact roundMagnitude_lower_of_normal _ (abs_intCast_normal work hw)

theorem rounding_constants :
    (0 : ℚ) ≤ 2 ^ (-53 : Int) ∧ (2 : ℚ) ^ (-53 : Int) ≤ 1 ∧
      (1 + (2 : ℚ) ^ (-53 : Int)) ^ 3 ≤ 1 + 2 ^ (-51 : Int) ∧
      1 - (2 : ℚ) ^ (-51 : Int) ≤ (1 - (2 : ℚ) ^ (-53 : Int)) ^ 3 ∧
      (2 : ℚ) ^ (-1075 : Int) * 1000000000 * (1 + (2 : ℚ) ^ (-53 : Int)) +
        (2 : ℚ) ^ (-1075 : Int) ≤ 2 ^ (-1040 : Int) ∧
      (0 : ℚ) ≤ 2 ^ (-1075 : Int) := by
  refine ⟨by positivity, ?_, ?_, ?_, ?_, by positivity⟩
  · norm_num
  · norm_num
  · norm_num
  · have h1 : (2 : ℚ) ^ (-1040 : Int) = 2 ^ (-1075 : Int) * 2 ^ (35 : Int) := by
      rw [← zpow_add₀ (by norm_num : (2 : ℚ) ≠ 0)]
      norm_num
    rw [h1]
    have h2 : (0 : ℚ) < 2 ^ (-1075 : Int) := two_zpow_pos _
    have h3 : (1000000000 : ℚ) * (1 + (2 : ℚ) ^ (-53 : Int)) + 1 ≤ 2 ^ (35 : Int) := by norm_num
    nlinarith

theorem nanosMagnitude_upper_cube (work : Int) (h : ℚ) (hh : 0 < h) :
    nanosMagnitude work h ≤
      |(work : ℚ)| * 1000000000 / h * (1 + 2 ^ (-53 : Int)) ^ 3 +
        (2 ^ (-1075 : Int) * 1000000000 * (1 + 2 ^ (-53 : Int)) + 2 ^ (-1075 : Int)) := by
  obtain ⟨hu0, _, _, _, _, ht0⟩ := rounding_constants
  have hz := roundMagnitude_upper (rateMagnitude work h * 1000000000)
    (mul_nonneg (rateMagnitude_nonneg work h hh) (by norm_num))
  have hy := roundMagnitude_upper (workMagnitude work / h)
    (div_nonneg (workMagnitude_nonneg work) (le_of_lt hh))
  have ha := workMagnitude_upper work
  have hA : (0 : ℚ) ≤ |(work : ℚ)| := abs_nonneg _
  change nanosMagnitude work h ≤ _ at hz
  change rateMagnitude work h ≤ _ at hy
  generalize nanosMagnitude work h = z at hz ⊢
  generalize rateMagnitude work h = y at hz hy
  generalize workMagnitude work = a at hy ha
  generalize |(work : ℚ)| = A at ha hA ⊢
  generalize (2 : ℚ) ^ (-53 : Int) = u at *
  generalize (2 : ℚ) ^ (-1075 : Int) = t at *
  have h1 : a / h ≤ A * (1 + u) / h := div_le_div_of_nonneg_right ha (le_of_lt hh)
  have h2 : y ≤ A * (1 + u) / h * (1 + u) + t := by
    have := mul_le_mul_of_nonneg_right h1 (by linarith : (0 : ℚ) ≤ 1 + u)
    linarith
  have h3 : y * 1000000000 * (1 + u) ≤
      (A * (1 + u) / h * (1 + u) + t) * 1000000000 * (1 + u) := by
    have := mul_le_mul_of_nonneg_right h2 (by norm_num : (0 : ℚ) ≤ 1000000000)
    exact mul_le_mul_of_nonneg_right this (by linarith)
  have h4 : (A * (1 + u) / h * (1 + u) + t) * 1000000000 * (1 + u) =
      A * 1000000000 / h * (1 + u) ^ 3 + t * 1000000000 * (1 + u) := by
    have := ne_of_gt hh
    field_simp
    ring
  linarith

theorem nanosMagnitude_lower_cube (work : Int) (h : ℚ) (hh : 0 < h) :
    |(work : ℚ)| * 1000000000 / h * (1 - 2 ^ (-53 : Int)) ^ 3 -
        (2 ^ (-1075 : Int) * 1000000000 * (1 + 2 ^ (-53 : Int)) + 2 ^ (-1075 : Int)) ≤
      nanosMagnitude work h := by
  obtain ⟨hu0, hu1, _, _, _, ht0⟩ := rounding_constants
  have hz := roundMagnitude_lower (rateMagnitude work h * 1000000000)
    (mul_nonneg (rateMagnitude_nonneg work h hh) (by norm_num))
  have hy := roundMagnitude_lower (workMagnitude work / h)
    (div_nonneg (workMagnitude_nonneg work) (le_of_lt hh))
  have ha := workMagnitude_lower work
  have hA : (0 : ℚ) ≤ |(work : ℚ)| := abs_nonneg _
  change _ ≤ nanosMagnitude work h at hz
  change _ ≤ rateMagnitude work h at hy
  generalize nanosMagnitude work h = z at hz ⊢
  generalize rateMagnitude work h = y at hz hy
  generalize workMagnitude work = a at hy ha
  generalize |(work : ℚ)| = A at ha hA ⊢
  generalize (2 : ℚ) ^ (-53 : Int) = u at *
  generalize (2 : ℚ) ^ (-1075 : Int) = t at *
  have h1 : A * (1 - u) / h ≤ a / h := div_le_div_of_nonneg_right ha (le_of_lt hh)
  have h2 : A * (1 - u) / h * (1 - u) - t ≤ y := by
    have := mul_le_mul_of_nonneg_right h1 (by linarith : (0 : ℚ) ≤ 1 - u)
    linarith
  have h3 : (A * (1 - u) / h * (1 - u) - t) * 1000000000 * (1 - u) ≤
      y * 1000000000 * (1 - u) := by
    have := mul_le_mul_of_nonneg_right h2 (by norm_num : (0 : ℚ) ≤ 1000000000)
    exact mul_le_mul_of_nonneg_right this (by linarith)
  have h4 : (A * (1 - u) / h * (1 - u) - t) * 1000000000 * (1 - u) =
      A * 1000000000 / h * (1 - u) ^ 3 - t * 1000000000 * (1 - u) := by
    have := ne_of_gt hh
    field_simp
    ring
  have h5 : t * 1000000000 * (1 - u) ≤ t * 1000000000 * (1 + u) := by
    have : (0 : ℚ) ≤ t * 1000000000 := mul_nonneg ht0 (by norm_num)
    exact mul_le_mul_of_nonneg_left (by linarith) this
  linarith

theorem nanosMagnitude_upper (work : Int) (h : ℚ) (hh : 0 < h) :
    nanosMagnitude work h ≤
      |(work : ℚ)| * 1000000000 / h * (1 + 2 ^ (-51 : Int)) + 2 ^ (-1040 : Int) := by
  obtain ⟨_, _, hF1, _, hF3, _⟩ := rounding_constants
  have h1 := nanosMagnitude_upper_cube work h hh
  have hX : (0 : ℚ) ≤ |(work : ℚ)| * 1000000000 / h :=
    div_nonneg (mul_nonneg (abs_nonneg _) (by norm_num)) (le_of_lt hh)
  have h2 := mul_le_mul_of_nonneg_left hF1 hX
  linarith

theorem nanosMagnitude_lower (work : Int) (h : ℚ) (hh : 0 < h) :
    |(work : ℚ)| * 1000000000 / h * (1 - 2 ^ (-51 : Int)) - 2 ^ (-1040 : Int) ≤
      nanosMagnitude work h := by
  obtain ⟨_, _, _, hF2, hF3, _⟩ := rounding_constants
  have h1 := nanosMagnitude_lower_cube work h hh
  have hX : (0 : ℚ) ≤ |(work : ℚ)| * 1000000000 / h :=
    div_nonneg (mul_nonneg (abs_nonneg _) (by norm_num)) (le_of_lt hh)
  have h2 := mul_le_mul_of_nonneg_left hF2 hX
  linarith

theorem nanosMagnitude_lower_of_one_le (work : Int) (h : ℚ) (hh : 0 < h)
    (hX : 1 ≤ |(work : ℚ)| * 1000000000 / h) :
    |(work : ℚ)| * 1000000000 / h * (1 - 2 ^ (-51 : Int)) ≤ nanosMagnitude work h := by
  obtain ⟨_, _, _, _, hF3, _⟩ := rounding_constants
  have h1 := nanosMagnitude_lower_cube work h hh
  have hc : 1 - (2 : ℚ) ^ (-51 : Int) + 2 ^ (-1040 : Int) ≤ (1 - (2 : ℚ) ^ (-53 : Int)) ^ 3 := by
    have h2 : (2 : ℚ) ^ (-1040 : Int) ≤ 2 ^ (-54 : Int) :=
      zpow_le_zpow_right₀ (by norm_num) (by norm_num)
    have h3 : 1 - (2 : ℚ) ^ (-51 : Int) + 2 ^ (-54 : Int) ≤ (1 - (2 : ℚ) ^ (-53 : Int)) ^ 3 := by
      norm_num
    linarith
  have h4 := mul_le_mul_of_nonneg_left hc (by linarith : (0 : ℚ) ≤ |(work : ℚ)| * 1000000000 / h)
  have h5 : (0 : ℚ) ≤ 2 ^ (-1040 : Int) := le_of_lt (two_zpow_pos _)
  have h6 : (2 : ℚ) ^ (-1040 : Int) ≤
      |(work : ℚ)| * 1000000000 / h * 2 ^ (-1040 : Int) := by
    have := mul_le_mul_of_nonneg_right hX h5
    linarith
  generalize |(work : ℚ)| * 1000000000 / h = X at *
  generalize (2 : ℚ) ^ (-1040 : Int) = T at *
  generalize (2 : ℚ) ^ (-51 : Int) = e at *
  generalize (1 - (2 : ℚ) ^ (-53 : Int)) ^ 3 = m at *
  generalize (2 : ℚ) ^ (-1075 : Int) * 1000000000 * (1 + (2 : ℚ) ^ (-53 : Int)) +
    (2 : ℚ) ^ (-1075 : Int) = T2 at *
  nlinarith

theorem withSign_sub (work : Int) (n : Int) (x : ℚ) :
    |((withSign work n : Int) : ℚ) - (work : ℚ) * x| = |(n : ℚ) - |(work : ℚ)| * x| := by
  unfold withSign
  split
  next hw =>
    have h1 : (work : ℚ) < 0 := by exact_mod_cast hw
    rw [abs_of_neg h1]
    push_cast
    rw [← abs_neg]
    congr 1
    ring
  next hw =>
    have h1 : (0 : ℚ) ≤ (work : ℚ) := by exact_mod_cast not_lt.mp hw
    rw [abs_of_nonneg h1]

theorem floor_nanosMagnitude_nonneg (work : Int) (h : ℚ) (hh : 0 < h) :
    0 ≤ ⌊nanosMagnitude work h⌋ :=
  Int.floor_nonneg.mpr (nanosMagnitude_nonneg work h hh)

theorem estimate_abs_sub_lt (work : Int) (h : ℚ) (hh : 0 < h) (d : Int)
    (hd : estimate work (.num false h) = some d) :
    |(d : ℚ) - (work : ℚ) * 1000000000 / h| <
      1 + |(work : ℚ)| * 1000000000 / h * 2 ^ (-51 : Int) := by
  obtain ⟨_, _, _, hd2, _⟩ := estimate_eq_some work h (ne_of_gt hh) d hd
  have e1 : (work : ℚ) * 1000000000 / h = (work : ℚ) * (1000000000 / h) := by ring
  have e2 : |(work : ℚ)| * 1000000000 / h = |(work : ℚ)| * (1000000000 / h) := by ring
  rw [hd2, e1, withSign_sub, ← e2]
  have hup := nanosMagnitude_upper work h hh
  have hlo := nanosMagnitude_lower work h hh
  have hn0 : (0 : ℚ) ≤ ((⌊nanosMagnitude work h⌋ : Int) : ℚ) := by
    exact_mod_cast floor_nanosMagnitude_nonneg work h hh
  have hf1 : ((⌊nanosMagnitude work h⌋ : Int) : ℚ) ≤ nanosMagnitude work h := Int.floor_le _
  have hf2 : nanosMagnitude work h < ((⌊nanosMagnitude work h⌋ : Int) : ℚ) + 1 :=
    Int.lt_floor_add_one _
  have hX : (0 : ℚ) ≤ |(work : ℚ)| * 1000000000 / h :=
    div_nonneg (mul_nonneg (abs_nonneg _) (by norm_num)) (le_of_lt hh)
  have hT : (2 : ℚ) ^ (-1040 : Int) < 1 := zpow_lt_one_of_neg₀ (by norm_num) (by norm_num)
  have he : (0 : ℚ) ≤ 2 ^ (-51 : Int) := le_of_lt (two_zpow_pos _)
  have hXe : (0 : ℚ) ≤ |(work : ℚ)| * 1000000000 / h * 2 ^ (-51 : Int) := mul_nonneg hX he
  rw [abs_lt]
  constructor
  · by_cases h1 : 1 ≤ |(work : ℚ)| * 1000000000 / h
    · have hlo2 := nanosMagnitude_lower_of_one_le work h hh h1
      generalize |(work : ℚ)| * 1000000000 / h = X at *
      generalize (2 : ℚ) ^ (-51 : Int) = e at *
      generalize nanosMagnitude work h = z at *
      linarith
    · linarith
  · generalize |(work : ℚ)| * 1000000000 / h = X at *
    generalize (2 : ℚ) ^ (-51 : Int) = e at *
    generalize (2 : ℚ) ^ (-1040 : Int) = T at *
    generalize nanosMagnitude work h = z at *
    linarith

theorem estimate_nonneg (work : Int) (h : ℚ) (hh : 0 < h) (hw : 0 ≤ work) (d : Int)
    (hd : estimate work (.num false h) = some d) : 0 ≤ d := by
  obtain ⟨_, _, _, hd2, _⟩ := estimate_eq_some work h (ne_of_gt hh) d hd
  rw [hd2, withSign, if_neg (by omega)]
  exact floor_nanosMagnitude_nonneg work h hh

theorem estimate_zero_of_small (work : Int) (h : ℚ) (hh : 0 < h) (d : Int)
    (hd : estimate work (.num false h) = some d)
    (hX : |(work : ℚ)| * 1000000000 / h ≤ 1 - 2 ^ (-50 : Int)) : d = 0 := by
  obtain ⟨_, _, _, hd2, _⟩ := estimate_eq_some work h (ne_of_gt hh) d hd
  have hup := nanosMagnitude_upper work h hh
  have hX0 : (0 : ℚ) ≤ |(work : ℚ)| * 1000000000 / h :=
    div_nonneg (mul_nonneg (abs_nonneg _) (by norm_num)) (le_of_lt hh)
  have hc : (1 - (2 : ℚ) ^ (-50 : Int)) * (1 + 2 ^ (-51 : Int)) + 2 ^ (-1040 : Int) < 1 := by
    have h2 : (2 : ℚ) ^ (-1040 : Int) ≤ 2 ^ (-54 : Int) :=
      zpow_le_zpow_right₀ (by norm_num) (by norm_num)
    have h3 : (1 - (2 : ℚ) ^ (-50 : Int)) * (1 + 2 ^ (-51 : Int)) + 2 ^ (-54 : Int) < 1 := by
      norm_num
    linarith
  have h4 := mul_le_mul_of_nonneg_right hX
    (by have := two_zpow_pos (-51); linarith : (0 : ℚ) ≤ 1 + 2 ^ (-51 : Int))
  have hz : nanosMagnitude work h < 1 := by linarith
  have hf : ⌊nanosMagnitude work h⌋ = 0 := by
    rw [Int.floor_eq_iff]
    exact ⟨by simpa using nanosMagnitude_nonneg work h hh, by simpa using hz⟩
  rw [hd2, hf]
  simp [withSign]

theorem estimate_pos_of_large (work : Int) (h : ℚ) (hh : 0 < h) (hw : 0 < work) (d : Int)
    (hd : estimate work (.num false h) = some d)
    (hX : 1 + 2 ^ (-50 : Int) ≤ (work : ℚ) * 1000000000 / h) : 1 ≤ d := by
  obtain ⟨_, _, _, hd2, _⟩ := estimate_eq_some work h (ne_of_gt hh) d hd
  have hwq : (0 : ℚ) < (work : ℚ) := by exact_mod_cast hw
  have habs : |(work : ℚ)| = (work : ℚ) := abs_of_pos hwq
  have h50 := two_zpow_pos (-50)
  have h1 : 1 ≤ |(work : ℚ)| * 1000000000 / h := by rw [habs]; linarith
  have hlo := nanosMagnitude_lower_of_one_le work h hh h1
  rw [habs] at hlo
  have hc : 1 ≤ (1 + (2 : ℚ) ^ (-50 : Int)) * (1 - 2 ^ (-51 : Int)) := by norm_num
  have h4 := mul_le_mul_of_nonneg_right hX
    (by norm_num : (0 : ℚ) ≤ 1 - 2 ^ (-51 : Int))
  have hz : (1 : ℚ) ≤ nanosMagnitude work h := by linarith
  have hf : 1 ≤ ⌊nanosMagnitude work h⌋ := Int.le_floor.mpr (by simpa using hz)
  rw [hd2, withSign, if_neg (by omega)]
  exact hf

theorem abs_le_of_fitsInt64 (work : Int) (hw : fitsInt64 work = true) :
    |(work : ℚ)| ≤ 2 ^ (63 : Int) := by
  simp only [fitsInt64, decide_eq_true_eq] at hw
  have h1 : |work| ≤ 2 ^ 63 := abs_le.mpr ⟨by omega, by omega⟩
  have h2 : ((|work| : Int) : ℚ) ≤ ((2 ^ 63 : Int) : ℚ) := by exact_mod_cast h1
  have h3 : (2 : ℚ) ^ (63 : Int) = ((2 ^ 63 : Int) : ℚ) := by norm_num
  rw [h3]
  simpa using h2

theorem workMagnitude_le (work : Int) (hw : fitsInt64 work = true) :
    workMagnitude work ≤ 2 ^ (63 : Int) :=
  roundMagnitude_le 63 (by norm_num) _ (abs_nonneg _) (abs_le_of_fitsInt64 work hw)

theorem fitsInt64_withSign (work : Int) (n : Int) (h0 : 0 ≤ n) (h1 : n < 2 ^ 63) :
    fitsInt64 (withSign work n) = true := by
  simp only [fitsInt64, withSign, decide_eq_true_eq]
  split <;> omega

theorem estimate_defined (work : Int) (h : ℚ) (hh : 0 < h) (hw : fitsInt64 work = true)
    (hX : |(work : ℚ)| * 1000000000 / h < 2 ^ (62 : Int)) :
    ∃ d, estimate work (.num false h) = some d := by
  obtain ⟨hu0, hu1, _, _, _, ht0⟩ := rounding_constants
  have hbig : (2 : ℚ) ^ (64 : Int) ≤ 2 ^ 1024 := by
    rw [← zpow_natCast]
    exact zpow_le_zpow_right₀ (by norm_num) (by norm_num)
  have ha := workMagnitude_le work hw
  have ha2 := workMagnitude_upper work
  have h63 : (2 : ℚ) ^ (63 : Int) < 2 ^ (64 : Int) := zpow_lt_zpow_right₀ (by norm_num) (by norm_num)
  have h62 : (2 : ℚ) ^ (62 : Int) * 2 = 2 ^ (63 : Int) := by norm_num
  have hX0 : (0 : ℚ) ≤ |(work : ℚ)| * 1000000000 / h :=
    div_nonneg (mul_nonneg (abs_nonneg _) (by norm_num)) (le_of_lt hh)
  have hq : workMagnitude work / h ≤ |(work : ℚ)| * 1000000000 / h * 2 := by
    have h1 : workMagnitude work / h ≤ |(work : ℚ)| * (1 + 2 ^ (-53 : Int)) / h :=
      div_le_div_of_nonneg_right ha2 (le_of_lt hh)
    have h2 : |(work : ℚ)| * (1 + 2 ^ (-53 : Int)) / h ≤ |(work : ℚ)| * 1000000000 / h * 2 := by
      rw [div_mul_eq_mul_div]
      apply div_le_div_of_nonneg_right _ (le_of_lt hh)
      have hA : (0 : ℚ) ≤ |(work : ℚ)| := abs_nonneg _
      nlinarith
    linarith
  have hy : rateMagnitude work h ≤ 2 ^ (63 : Int) :=
    roundMagnitude_le 63 (by norm_num) _ (div_nonneg (workMagnitude_nonneg work) (le_of_lt hh))
      (by linarith)
  have hup := nanosMagnitude_upper work h hh
  have hT : (2 : ℚ) ^ (-1040 : Int) < 1 := zpow_lt_one_of_neg₀ (by norm_num) (by norm_num)
  have hz : nanosMagnitude work h < 2 ^ (63 : Int) := by
    have h51 : (2 : ℚ) ^ (-51 : Int) ≤ 1 / 2 := by norm_num
    have h3 : |(work : ℚ)| * 1000000000 / h * (1 + 2 ^ (-51 : Int)) ≤
        |(work : ℚ)| * 1000000000 / h * (3 / 2) :=
      mul_le_mul_of_nonneg_left (by linarith) hX0
    have h4 : (1 : ℚ) ≤ 2 ^ (62 : Int) / 2 := by norm_num
    linarith
  have hfl : ⌊nanosMagnitude work h⌋ < 2 ^ 63 := by
    rw [Int.floor_lt]
    have : (((2 ^ 63 : Int) : Int) : ℚ) = 2 ^ (63 : Int) := by norm_num
    rw [this]
    exact hz
  exact ⟨_, estimate_of_lt work h (ne_of_gt hh) (by linarith) (by linarith) (by linarith)
    (fitsInt64_withSign work _ (floor_nanosMagnitude_nonneg work h hh) hfl)⟩

theorem tdiv_two (d : Int) : d.tdiv 2 = if 0 ≤ d then d / 2 else -((-d) / 2) := by
  split
  next h => exact Int.tdiv_eq_ediv h (by decide)
  next h =>
    have h1 : d = -(-d) := by omega
    have h2 : (0 : Int) ≤ -d := by omega
    conv_lhs => rw [h1]
    rw [Int.neg_tdiv, Int.tdiv_eq_ediv h2 (by decide)]

theorem fitsInt64_tdiv_two (d : Int) (h : fitsInt64 d = true) : fitsInt64 (d.tdiv 2) = true := by
  simp only [fitsInt64, decide_eq_true_eq] at h ⊢
  rw [tdiv_two]
  split <;> omega

theorem floor_half (z : ℚ) : ⌊z / 2⌋ = ⌊z⌋ / 2 := by
  rw [Int.floor_eq_iff]
  have h1 : ((⌊z⌋ : Int) : ℚ) ≤ z := Int.floor_le z
  have h2 : z < ((⌊z⌋ : Int) : ℚ) + 1 := Int.lt_floor_add_one z
  have h3 : 2 * (⌊z⌋ / 2) ≤ ⌊z⌋ := by omega
  have h4 : ⌊z⌋ + 1 ≤ 2 * (⌊z⌋ / 2) + 2 := by omega
  have h5 : (2 : ℚ) * ((⌊z⌋ / 2 : Int) : ℚ) ≤ ((⌊z⌋ : Int) : ℚ) := by exact_mod_cast h3
  have h6 : ((⌊z⌋ : Int) : ℚ) + 1 ≤ 2 * ((⌊z⌋ / 2 : Int) : ℚ) + 2 := by exact_mod_cast h4
  constructor <;> linarith

theorem withSign_half (work : Int) (n : Int) (hn : 0 ≤ n) :
    withSign work (n / 2) = (withSign work n).tdiv 2 := by
  unfold withSign
  split
  · rw [Int.neg_tdiv, Int.tdiv_eq_ediv hn (by decide)]
  · rw [Int.tdiv_eq_ediv hn (by decide)]

theorem floor_eq_zero_of_le_half (z : ℚ) (h0 : 0 ≤ z) (h : z ≤ 2 ^ (-1 : Int)) : ⌊z⌋ = 0 := by
  rw [Int.floor_eq_iff]
  have : (2 : ℚ) ^ (-1 : Int) < 1 := by norm_num
  exact ⟨by simpa using h0, by simp; linarith⟩

/-- When the quotient `float64(work) / hps` is below `2^-1021`, the product with `10^9` is
below one half and the duration is 0. -/
theorem nanosMagnitude_tiny (work : Int) (h : ℚ) (hh : 0 < h)
    (hq : workMagnitude work / h ≤ 2 ^ (-960 : Int)) :
    rateMagnitude work h ≤ 2 ^ (-960 : Int) ∧ nanosMagnitude work h ≤ 2 ^ (-1 : Int) := by
  have hy : rateMagnitude work h ≤ 2 ^ (-960 : Int) :=
    roundMagnitude_le (-960) (by norm_num) _
      (div_nonneg (workMagnitude_nonneg work) (le_of_lt hh)) hq
  refine ⟨hy, ?_⟩
  apply roundMagnitude_le (-1) (by norm_num) _
    (mul_nonneg (rateMagnitude_nonneg work h hh) (by norm_num))
  have h1 : (2 : ℚ) ^ (-960 : Int) * 1000000000 ≤ 2 ^ (-1 : Int) := by
    have h2 : (2 : ℚ) ^ (-1 : Int) = 2 ^ (-960 : Int) * 2 ^ (959 : Int) := by
      rw [← zpow_add₀ (by norm_num : (2 : ℚ) ≠ 0)]
      norm_num
    rw [h2]
    have h3 : (1000000000 : ℚ) ≤ 2 ^ (959 : Int) := by
      have h4 : (2 : ℚ) ^ (30 : Int) ≤ 2 ^ (959 : Int) :=
        zpow_le_zpow_right₀ (by norm_num) (by norm_num)
      have h5 : (1000000000 : ℚ) ≤ 2 ^ (30 : Int) := by norm_num
      linarith
    exact mul_le_mul_of_nonneg_left h3 (le_of_lt (two_zpow_pos _))
  have h6 := mul_le_mul_of_nonneg_right hy (by norm_num : (0 : ℚ) ≤ 1000000000)
  linarith

theorem estimate_tiny (work : Int) (h : ℚ) (hh : 0 < h) (h1 : workMagnitude work < 2 ^ 1024)
    (hq : workMagnitude work / h ≤ 2 ^ (-960 : Int)) :
    estimate work (.num false h) = some 0 := by
  obtain ⟨hy, hz⟩ := nanosMagnitude_tiny work h hh hq
  have hbig : (2 : ℚ) ^ (0 : Int) ≤ 2 ^ 1024 := by
    rw [← zpow_natCast]
    exact zpow_le_zpow_right₀ (by norm_num) (by norm_num)
  have h960 : (2 : ℚ) ^ (-960 : Int) < 2 ^ (0 : Int) := zpow_lt_zpow_right₀ (by norm_num) (by norm_num)
  have h01 : (2 : ℚ) ^ (-1 : Int) < 2 ^ (0 : Int) := zpow_lt_zpow_right₀ (by norm_num) (by norm_num)
  have hf := floor_eq_zero_of_le_half _ (nanosMagnitude_nonneg work h hh) hz
  have h4 : fitsInt64 (withSign work ⌊nanosMagnitude work h⌋) = true := by
    rw [hf]
    exact fitsInt64_withSign work 0 (le_refl 0) (by norm_num)
  have h5 := estimate_of_lt work h (ne_of_gt hh) h1 (by linarith) (by linarith) h4
  rw [h5, hf]
  simp [withSign]

theorem estimate_inf (work : Int) (h1 : workMagnitude work < 2 ^ 1024) :
    estimate work (.inf false) = some 0 := by
  have h1' : ¬ (2 : ℚ) ^ 1024 ≤ roundMagnitude |(work : ℚ)| := not_le.mpr h1
  have h0 : ¬ (2 : ℚ) ^ 1024 ≤ 0 := by norm_num
  unfold estimate GoFloat.ofInt round64
  rw [if_neg h1']
  simp only [GoFloat.div, GoFloat.mul, Bool.xor_false, zero_mul, round64, roundMagnitude_zero]
  rw [if_neg h0]
  simp [GoFloat.toInt64, fitsInt64]

theorem estimate_halved (work : Int) (h : ℚ) (hh : 0 < h) (d : Int)
    (hd : estimate work (.num false h) = some d) :
    estimate work (.num false (2 * h)) = some (d.tdiv 2) := by
  obtain ⟨h1, h2, h3, hd2, hfit⟩ := estimate_eq_some work h (ne_of_gt hh) d hd
  have h2h : (0 : ℚ) < 2 * h := by positivity
  have hquot : workMagnitude work / (2 * h) = workMagnitude work / h / 2 := by
    rw [div_div, mul_comm h 2]
  by_cases hq : (2 : ℚ) ^ (-1021 : Int) ≤ workMagnitude work / h
  · have hy : rateMagnitude work (2 * h) = rateMagnitude work h / 2 := by
      unfold rateMagnitude
      rw [hquot, roundMagnitude_half _ hq]
    have hy1 : (2 : ℚ) ^ (-1021 : Int) ≤ rateMagnitude work h :=
      le_roundMagnitude (-1021) (by norm_num) _ hq
    have hyc : (2 : ℚ) ^ (-1021 : Int) ≤ rateMagnitude work h * 1000000000 := by
      have : (0 : ℚ) ≤ rateMagnitude work h := rateMagnitude_nonneg work h hh
      nlinarith
    have hz : nanosMagnitude work (2 * h) = nanosMagnitude work h / 2 := by
      unfold nanosMagnitude
      rw [hy, div_mul_eq_mul_div, roundMagnitude_half _ hyc]
    have hy0 := rateMagnitude_nonneg work h hh
    have hz0 := nanosMagnitude_nonneg work h hh
    have hn0 := floor_nanosMagnitude_nonneg work h hh
    have hfl : withSign work ⌊nanosMagnitude work (2 * h)⌋ = d.tdiv 2 := by
      rw [hz, floor_half, withSign_half work _ hn0, ← hd2]
    have h5 := estimate_of_lt work (2 * h) (ne_of_gt h2h) h1 (by rw [hy]; linarith)
      (by rw [hz]; linarith) (by rw [hfl]; exact fitsInt64_tdiv_two d hfit)
    rw [h5, hfl]
  · have hq1 : workMagnitude work / h ≤ 2 ^ (-960 : Int) := by
      have : (2 : ℚ) ^ (-1021 : Int) ≤ 2 ^ (-960 : Int) :=
        zpow_le_zpow_right₀ (by norm_num) (by norm_num)
      linarith [not_le.mp hq]
    have hq2 : workMagnitude work / (2 * h) ≤ 2 ^ (-960 : Int) := by
      rw [hquot]
      have : (0 : ℚ) ≤ workMagnitude work / h :=
        div_nonneg (workMagnitude_nonneg work) (le_of_lt hh)
      linarith
    have e1 := estimate_tiny work h hh h1 hq1
    rw [e1] at hd
    have hd0 : d = 0 := (Option.some.inj hd).symm
    rw [estimate_tiny work (2 * h) h2h h1 hq2, hd0]
    rfl

/-- The halving relation for `2 * hps` computed in `float64`. -/
theorem estimate_double (work : Int) (h : ℚ) (hh : 0 < h) (hrep : roundMagnitude h = h)
    (d : Int) (hw : fitsInt64 work = true) (hd : estimate work (.num false h) = some d) :
    estimate work (GoFloat.mul (.num false 2) (.num false h)) = some (d.tdiv 2) := by
  obtain ⟨h1, _, _, _, _⟩ := estimate_eq_some work h (ne_of_gt hh) d hd
  have hmul : GoFloat.mul (.num false 2) (.num false h) =
      if (2 : ℚ) ^ 1024 ≤ 2 * h then .inf false else .num false (2 * h) := by
    simp [GoFloat.mul, round64, roundMagnitude_double h hh hrep]
  rw [hmul]
  split
  next hbig =>
    have hh2 : (2 : ℚ) ^ (1023 : Int) ≤ h := by
      have e : (2 : ℚ) ^ 1024 = 2 * 2 ^ (1023 : Int) := by
        rw [← zpow_natCast, show ((1024 : Nat) : Int) = 1023 + 1 from rfl,
          zpow_add_one₀ (by norm_num : (2 : ℚ) ≠ 0)]
        ring
      rw [e] at hbig
      linarith
    have hq : workMagnitude work / h ≤ 2 ^ (-960 : Int) := by
      have ha := workMagnitude_le work hw
      rw [div_le_iff₀ hh]
      have e : (2 : ℚ) ^ (63 : Int) = 2 ^ (-960 : Int) * 2 ^ (1023 : Int) := by
        rw [← zpow_add₀ (by norm_num : (2 : ℚ) ≠ 0)]
        norm_num
      have := mul_le_mul_of_nonneg_left hh2 (le_of_lt (two_zpow_pos (-960)))
      linarith
    have e1 := estimate_tiny work h hh h1 hq
    rw [e1] at hd
    have hd0 : d = 0 := (Option.some.inj hd).symm
    rw [estimate_inf work h1, hd0]
    rfl
  next => exact estimate_halved work h hh d hd

theorem roundMagnitude_of_isFloat64 (h : ℚ) (hrep : IsFloat64 h) : roundMagnitude h = h := by
  unfold IsFloat64 round64 at hrep
  split at hrep
  · exact absurd hrep (by simp)
  · simpa using hrep

theorem isFloat64_natCast (n : Nat) (h : n < 2 ^ 53) : IsFloat64 (n : ℚ) :=
  round64_natCast n h

theorem estimate_le_upper (work : Int) (h : ℚ) (hh : 0 < h) (hw : 0 ≤ work) (d : Int)
    (hd : estimate work (.num false h) = some d) :
    (d : ℚ) ≤ (work : ℚ) * 1000000000 / h * (1 + 2 ^ (-51 : Int)) + 2 ^ (-54 : Int) := by
  obtain ⟨_, _, _, hd2, _⟩ := estimate_eq_some work h (ne_of_gt hh) d hd
  have hup := nanosMagnitude_upper work h hh
  have hwq : (0 : ℚ) ≤ (work : ℚ) := by exact_mod_cast hw
  rw [abs_of_nonneg hwq] at hup
  have hf : ((⌊nanosMagnitude work h⌋ : Int) : ℚ) ≤ nanosMagnitude work h := Int.floor_le _
  have hT : (2 : ℚ) ^ (-1040 : Int) ≤ 2 ^ (-54 : Int) :=
    zpow_le_zpow_right₀ (by norm_num) (by norm_num)
  rw [hd2, withSign, if_neg (by omega)]
  linarith

theorem estimate_gt_lower (work : Int) (h : ℚ) (hh : 0 < h) (hw : 0 ≤ work) (d : Int)
    (hd : estimate work (.num false h) = some d) :
    (work : ℚ) * 1000000000 / h * (1 - 2 ^ (-51 : Int)) - 1 < (d : ℚ) := by
  have h1 := estimate_abs_sub_lt work h hh d hd
  have hwq : (0 : ℚ) ≤ (work : ℚ) := by exact_mod_cast hw
  rw [abs_of_nonneg hwq, abs_lt] at h1
  linarith [h1.1]

theorem estimate_exact (work : Int) (h : ℚ) (hh : 0 < h) (n : Nat) (hn : n < 2 ^ 53)
    (hw : work.natAbs < 2 ^ 53) (hq : roundMagnitude (|(work : ℚ)| / h) = |(work : ℚ)| / h)
    (hx : |(work : ℚ)| / h * 1000000000 = (n : ℚ)) :
    estimate work (.num false h) = some (withSign work n) := by
  have habs : |(work : ℚ)| = ((work.natAbs : Nat) : ℚ) := by
    rw [Nat.cast_natAbs]
    push_cast
    rfl
  have ha : workMagnitude work = |(work : ℚ)| := by
    unfold workMagnitude
    rw [habs]
    exact roundMagnitude_natCast _ hw
  have hy : rateMagnitude work h = |(work : ℚ)| / h := by
    unfold rateMagnitude
    rw [ha, hq]
  have hz : nanosMagnitude work h = (n : ℚ) := by
    unfold nanosMagnitude
    rw [hy, hx]
    exact roundMagnitude_natCast n hn
  have hbig := not_overflow_natCast n hn
  have hbigw := not_overflow_natCast work.natAbs hw
  have hylt : |(work : ℚ)| / h < 2 ^ 1024 := by
    have h1 : |(work : ℚ)| / h ≤ |(work : ℚ)| / h * 1000000000 := by
      have : (0 : ℚ) ≤ |(work : ℚ)| / h := div_nonneg (abs_nonneg _) (le_of_lt hh)
      nlinarith
    rw [hx] at h1
    exact lt_of_le_of_lt h1 (not_le.mp hbig)
  have hfl : ⌊nanosMagnitude work h⌋ = (n : Int) := by
    rw [hz]
    exact Int.floor_natCast n
  have h5 := estimate_of_lt work h (ne_of_gt hh) (by rw [ha, habs]; exact not_le.mp hbigw)
    (by rw [hy]; exact hylt) (by rw [hz]; exact not_le.mp hbig)
    (by rw [hfl]; exact fitsInt64_withSign work n (by omega) (by omega))
  rw [h5, hfl]

theorem mem_printEstimates (catalog : List Parameters) (info : tpmInfo) (hps : GoFloat)
    (sortBy : estimateOrdering) (alg : Parameters) (halg : alg ∈ catalog) :
    estimateRow hps alg ∈ printEstimates catalog info hps sortBy := by
  unfold printEstimates
  exact List.mem_map_of_mem _ ((sortSlice_perm (less sortBy) catalog).mem_iff.mpr halg)

theorem estimate_one_third : estimate 1 (.num false 3) = some 333333333 := by
  obtain ⟨d, hd⟩ := estimate_defined 1 3 (by norm_num) (by decide) (by norm_num)
  have h1 := estimate_le_upper 1 3 (by norm_num) (by decide) d hd
  have h2 := estimate_gt_lower 1 3 (by norm_num) (by decide) d hd
  have h3 : (d : ℚ) < 333333334 := by
    have : ((1 : Int) : ℚ) * 1000000000 / 3 * (1 + 2 ^ (-51 : Int)) + 2 ^ (-54 : Int) <
        333333334 := by norm_num
    linarith
  have h4 : (333333332 : ℚ) < (d : ℚ) := by
    have : (333333332 : ℚ) < ((1 : Int) : ℚ) * 1000000000 / 3 * (1 - 2 ^ (-51 : Int)) - 1 := by
      norm_num
    linarith
  have h5 : d < 333333334 := by exact_mod_cast h3
  have h6 : 333333332 < d := by exact_mod_cast h4
  have h7 : d = 333333333 := by omega
  rw [hd, h7]

/-- C4, as stated, fails: with `hps = 3` an entry with `keygenWork = sigWork = 1` gets the
durations 333333333 ns, which is not `1 / 3` seconds. -/
theorem printEstimates_duration_counterexample :
    printEstimates [schemeOne] noInfo (.num false 3) byKeygenWork =
        [⟨"one", 4, 1024, 1000, some 333333333, some 333333333⟩] ∧
      ((333333333 : Int) : ℚ) / 1000000000 ≠ ((1 : Int) : ℚ) / 3 := by
  refine ⟨?_, by norm_num⟩
  have h : sortSlice (less byKeygenWork) [schemeOne] = [schemeOne] := by decide
  unfold printEstimates
  rw [h]
  simp only [List.map, estimateRow, schemeOne, estimate_one_third]
  rfl

/-- C4, amended. For every catalog entry and every finite `hps > 0`, `printEstimates` emits a
row for that entry.  Its keygen duration `d` (nanoseconds; defined whenever `keygenWork` is
an `int64` and `|keygenWork| * 10^9 / hps < 2^62`) equals `keygenWork / hps` seconds up to
the truncation to whole nanoseconds and the rounding of the three `float64` operations:
`|d - keygenWork * 10^9 / hps| < 1 + 2^-51 * |keygenWork| * 10^9 / hps`.  It is exactly
`keygenWork / hps` seconds whenever `|keygenWork| < 2^53`, `|keygenWork| / hps` is a
`float64` value and `|keygenWork| * 10^9 / hps` is a whole number below `2^53`.  The same
holds for the signing duration and `sigWork`. -/
theorem printEstimates_row_durations (catalog : List Parameters) (info : tpmInfo) (h : ℚ)
    (hh : 0 < h) (sortBy : estimateOrdering) (alg : Parameters) (halg : alg ∈ catalog) :
    ∃ r ∈ printEstimates catalog info (.num false h) sortBy,
      r.friendlyName = alg.FriendlyName ∧ r.w = alg.W ∧ r.sigSize = alg.SigSize ∧
      (∀ d : Int, r.keygen = some d →
        |(d : ℚ) - (alg.KeygenWork : ℚ) * 1000000000 / h| <
          1 + |(alg.KeygenWork : ℚ)| * 1000000000 / h * 2 ^ (-51 : Int)) ∧
      (∀ d : Int, r.signing = some d →
        |(d : ℚ) - (alg.SigWork : ℚ) * 1000000000 / h| <
          1 + |(alg.SigWork : ℚ)| * 1000000000 / h * 2 ^ (-51 : Int)) ∧
      (fitsInt64 alg.KeygenWork = true →
        |(alg.KeygenWork : ℚ)| * 1000000000 / h < 2 ^ (62 : Int) → ∃ d, r.keygen = some d) ∧
      (fitsInt64 alg.SigWork = true →
        |(alg.SigWork : ℚ)| * 1000000000 / h < 2 ^ (62 : Int) → ∃ d, r.signing = some d) ∧
      (∀ n : Nat, n < 2 ^ 53 → alg.KeygenWork.natAbs < 2 ^ 53 →
        roundMagnitude (|(alg.KeygenWork : ℚ)| / h) = |(alg.KeygenWork : ℚ)| / h →
        |(alg.KeygenWork : ℚ)| / h * 1000000000 = (n : ℚ) →
        r.keygen = some (withSign alg.KeygenWork n)) ∧
      (∀ n : Nat, n < 2 ^ 53 → alg.SigWork.natAbs < 2 ^ 53 →
        roundMagnitude (|(alg.SigWork : ℚ)| / h) = |(alg.SigWork : ℚ)| / h →
        |(alg.SigWork : ℚ)| / h * 1000000000 = (n : ℚ) →
        r.signing = some (withSign alg.SigWork n)) :=
  ⟨estimateRow (.num false h) alg, mem_printEstimates catalog info _ sortBy alg halg,
    rfl, rfl, rfl,
    fun d hd => estimate_abs_sub_lt _ h hh d hd,
    fun d hd => estimate_abs_sub_lt _ h hh d hd,
    fun hw hX => estimate_defined _ h hh hw hX,
    fun hw hX => estimate_defined _ h hh hw hX,
    fun n hn hw hq hx => estimate_exact _ h hh n hn hw hq hx,
    fun n hn hw hq hx => estimate_exact _ h hh n hn hw hq hx⟩

theorem roundMagnitude_one_half : roundMagnitude (1 / 2) = 1 / 2 := by
  have h1 : roundMagnitude 1 = 1 := by
    have := roundMagnitude_natCast 1 (by norm_num)
    simpa using this
  have h2 : (2 : ℚ) ^ (-1021 : Int) ≤ 1 := zpow_le_one_of_nonpos₀ (by norm_num) (by norm_num)
  rw [roundMagnitude_half 1 h2, h1]

theorem roundMagnitude_ofNat (n : Nat) (h : n < 2 ^ 53) (x : ℚ) (hx : x = (n : ℚ)) :
    roundMagnitude x = x := by
  rw [hx]
  exact roundMagnitude_natCast n h

theorem printEstimates_row_durations_witness :
    (∃ r ∈ printEstimates [schemeA, schemeB] noInfo (.num false 10) byKeygenWork,
        r.friendlyName = "A" ∧ r.keygen = some 10000000000 ∧ r.signing = some 5000000000) ∧
      (∃ r ∈ printEstimates [schemeA, schemeB] noInfo (.num false 10) byKeygenWork,
        r.friendlyName = "B" ∧ r.keygen = some 1000000000 ∧ r.signing = some 500000000) := by
  constructor
  · obtain ⟨r, hr, hname, _, _, _, _, _, _, hk, hs⟩ :=
      printEstimates_row_durations [schemeA, schemeB] noInfo 10 (by norm_num) byKeygenWork
        schemeA (by simp)
    refine ⟨r, hr, hname, ?_, ?_⟩
    · exact hk 10000000000 (by norm_num) (by decide)
        (roundMagnitude_ofNat 10 (by norm_num) _ (by norm_num [schemeA]))
        (by norm_num [schemeA])
    · exact hs 5000000000 (by norm_num) (by decide)
        (roundMagnitude_ofNat 5 (by norm_num) _ (by norm_num [schemeA]))
        (by norm_num [schemeA])
  · obtain ⟨r, hr, hname, _, _, _, _, _, _, hk, hs⟩ :=
      printEstimates_row_durations [schemeA, schemeB] noInfo 10 (by norm_num) byKeygenWork
        schemeB (by simp)
    refine ⟨r, hr, hname, ?_, ?_⟩
    · exact hk 1000000000 (by norm_num) (by decide)
        (roundMagnitude_ofNat 1 (by norm_num) _ (by norm_num [schemeB]))
        (by norm_num [schemeB])
    · have h12 : |((schemeB.SigWork : Int) : ℚ)| / 10 = 1 / 2 := by norm_num [schemeB]
      exact hs 500000000 (by norm_num) (by decide)
        (by rw [h12]; exact roundMagnitude_one_half) (by norm_num [schemeB])

theorem estimate_one_fast : estimate 1 (.num false 2000000000) = some 0 := by
  obtain ⟨d, hd⟩ := estimate_defined 1 2000000000 (by norm_num) (by decide) (by norm_num)
  have h1 := estimate_zero_of_small 1 2000000000 (by norm_num) d hd (by norm_num)
  rw [hd, h1]

/-- C8, as stated, fails: with `hps = 2 * 10^9` an entry with `keygenWork = sigWork = 1`
gets the durations 0 ns, which are not strictly positive. -/
theorem printEstimates_positive_counterexample :
    0 < schemeOne.KeygenWork ∧ 0 < schemeOne.SigWork ∧ (0 : ℚ) < 2000000000 ∧
      (estimateRow (.num false 2000000000) schemeOne).keygen = some 0 ∧
      (estimateRow (.num false 2000000000) schemeOne).signing = some 0 ∧
      printEstimates [schemeOne] noInfo (.num false 2000000000) byKeygenWork =
        [⟨"one", 4, 1024, 1000, some 0, some 0⟩] := by
  have h : sortSlice (less byKeygenWork) [schemeOne] = [schemeOne] := by decide
  refine ⟨by decide, by decide, by norm_num, estimate_one_fast, estimate_one_fast, ?_⟩
  unfold printEstimates
  rw [h]
  simp only [List.map, estimateRow, schemeOne, estimate_one_fast]
  rfl

/-- C8, amended. For every catalog entry with `keygenWork > 0` and `sigWork > 0` and every
finite `hps > 0`, the keygen and signing durations computed at lines 236-237 are
non-negative whole nanoseconds: a duration is at least 1 ns whenever
`work * 10^9 / hps ≥ 1 + 2^-50` and is 0 ns whenever `work * 10^9 / hps ≤ 1 - 2^-50`.  The
duration is defined whenever the work count is an `int64` and
`work * 10^9 / hps < 2^62`. -/
theorem estimateRow_durations_sign (alg : Parameters) (h : ℚ) (hk : 0 < alg.KeygenWork)
    (hs : 0 < alg.SigWork) (hh : 0 < h) :
    (∀ d, (estimateRow (.num false h) alg).keygen = some d →
        0 ≤ d ∧
        (1 + 2 ^ (-50 : Int) ≤ (alg.KeygenWork : ℚ) * 1000000000 / h → 1 ≤ d) ∧
        ((alg.KeygenWork : ℚ) * 1000000000 / h ≤ 1 - 2 ^ (-50 : Int) → d = 0)) ∧
      (∀ d, (estimateRow (.num false h) alg).signing = some d →
        0 ≤ d ∧
        (1 + 2 ^ (-50 : Int) ≤ (alg.SigWork : ℚ) * 1000000000 / h → 1 ≤ d) ∧
        ((alg.SigWork : ℚ) * 1000000000 / h ≤ 1 - 2 ^ (-50 : Int) → d = 0)) ∧
      (fitsInt64 alg.KeygenWork = true →
        (alg.KeygenWork : ℚ) * 1000000000 / h < 2 ^ (62 : Int) →
        ∃ d, (estimateRow (.num false h) alg).keygen = some d) ∧
      (fitsInt64 alg.SigWork = true →
        (alg.SigWork : ℚ) * 1000000000 / h < 2 ^ (62 : Int) →
        ∃ d, (estimateRow (.num false h) alg).signing = some d) := by
  have hkq : |(alg.KeygenWork : ℚ)| = (alg.KeygenWork : ℚ) :=
    abs_of_pos (by exact_mod_cast hk)
  have hsq : |(alg.SigWork : ℚ)| = (alg.SigWork : ℚ) := abs_of_pos (by exact_mod_cast hs)
  refine ⟨fun d hd => ⟨estimate_nonneg _ h hh (le_of_lt hk) d hd,
      fun hX => estimate_pos_of_large _ h hh hk d hd hX,
      fun hX => estimate_zero_of_small _ h hh d hd (by rw [hkq]; exact hX)⟩,
    fun d hd => ⟨estimate_nonneg _ h hh (le_of_lt hs) d hd,
      fun hX => estimate_pos_of_large _ h hh hs d hd hX,
      fun hX => estimate_zero_of_small _ h hh d hd (by rw [hsq]; exact hX)⟩,
    fun hw hX => estimate_defined _ h hh hw (by rw [hkq]; exact hX),
    fun hw hX => estimate_defined _ h hh hw (by rw [hsq]; exact hX)⟩

theorem estimateRow_durations_sign_witness :
    0 < schemeOne.KeygenWork ∧ 0 < schemeOne.SigWork ∧ (0 : ℚ) < 3 ∧
      (estimateRow (.num false 3) schemeOne).keygen = some 333333333 ∧
      (1 : Int) ≤ 333333333 :=
  ⟨by decide, by decide, by norm_num, estimate_one_third,
    ((estimateRow_durations_sign schemeOne 3 (by decide) (by decide) (by norm_num)).1
      333333333 estimate_one_third).2.1 (by norm_num [schemeOne])⟩

theorem estimate_three_fast : estimate 3 (.num false 2000000000) = some 1 := by
  obtain ⟨d, hd⟩ := estimate_defined 3 2000000000 (by norm_num) (by decide) (by norm_num)
  have h1 := estimate_le_upper 3 2000000000 (by norm_num) (by decide) d hd
  have h2 := estimate_pos_of_large 3 2000000000 (by norm_num) (by decide) d hd (by norm_num)
  have h3 : (d : ℚ) < 2 := by
    have : ((3 : Int) : ℚ) * 1000000000 / 2000000000 * (1 + 2 ^ (-51 : Int)) +
        2 ^ (-54 : Int) < 2 := by norm_num
    linarith
  have h5 : d < 2 := by exact_mod_cast h3
  have h7 : d = 1 := by omega
  rw [hd, h7]

/-- C9, as stated, fails: for an entry with `keygenWork = sigWork = 3` the durations are 1 ns
at `hps = 2 * 10^9` and 0 ns at twice that rate, and 0 is not half of 1. -/
theorem estimateRow_halving_counterexample :
    (estimateRow (.num false 2000000000) schemeThree).keygen = some 1 ∧
      (estimateRow (GoFloat.mul (.num false 2) (.num false 2000000000)) schemeThree).keygen =
        some 0 ∧
      (estimateRow (.num false 2000000000) schemeThree).signing = some 1 ∧
      (estimateRow (GoFloat.mul (.num false 2) (.num false 2000000000)) schemeThree).signing =
        some 0 ∧
      ((0 : Int) : ℚ) ≠ ((1 : Int) : ℚ) / 2 := by
  have hrep : roundMagnitude (2000000000 : ℚ) = 2000000000 :=
    roundMagnitude_ofNat 2000000000 (by norm_num) _ (by norm_num)
  have h2 : estimate 3 (GoFloat.mul (.num false 2) (.num false 2000000000)) = some 0 :=
    estimate_double 3 2000000000 (by norm_num) hrep 1 (by decide) estimate_three_fast
  exact ⟨estimate_three_fast, h2, estimate_three_fast, h2, by norm_num⟩

/-- C9, amended. For every catalog entry whose `keygenWork` and `sigWork` are `int64` values
and every finite `float64` value `hps > 0`: whenever the duration computed for `hps` fits
in `int64`, the duration computed for the `float64` product `2 * hps` is that duration
halved and rounded toward zero to a whole number of nanoseconds (Go integer division by
2). -/
theorem estimateRow_halving (alg : Parameters) (h : ℚ) (hh : 0 < h) (hrep : IsFloat64 h)
    (hk : fitsInt64 alg.KeygenWork = true) (hs : fitsInt64 alg.SigWork = true) :
    (∀ d, (estimateRow (.num false h) alg).keygen = some d →
        (estimateRow (GoFloat.mul (.num false 2) (.num false h)) alg).keygen =
          some (d.tdiv 2)) ∧
      (∀ d, (estimateRow (.num false h) alg).signing = some d →
        (estimateRow (GoFloat.mul (.num false 2) (.num false h)) alg).signing =
          some (d.tdiv 2)) :=
  ⟨fun d hd => estimate_double _ h hh (roundMagnitude_of_isFloat64 h hrep) d hk hd,
    fun d hd => estimate_double _ h hh (roundMagnitude_of_isFloat64 h hrep) d hs hd⟩

theorem estimate_schemeA_keygen : estimate 100 (.num false 10) = some 10000000000 :=
  estimate_exact 100 10 (by norm_num) 10000000000 (by norm_num) (by decide)
    (roundMagnitude_ofNat 10 (by norm_num) _ (by norm_num)) (by norm_num)

theorem estimateRow_halving_witness :
    (0 : ℚ) < 10 ∧ IsFloat64 10 ∧
      (estimateRow (GoFloat.mul (.num false 2) (.num false 10)) schemeA).keygen =
        some 5000000000 :=
  ⟨by norm_num, by simpa using isFloat64_natCast 10 (by norm_num),
    (estimateRow_halving schemeA 10 (by norm_num)
      (by simpa using isFloat64_natCast 10 (by norm_num)) (by decide) (by decide)).1
      10000000000 estimate_schemeA_keygen⟩

/-! ## The sort_by flag -/

theorem selectOrdering_unknown (sortBy : String) (h1 : sortBy ≠ "name")
    (h2 : sortBy ≠ "keygen") (h3 : sortBy ≠ "signing") (h4 : sortBy ≠ "size") :
    selectOrdering sortBy = none := by
  simp [selectOrdering, h1, h2, h3, h4]

theorem mainErr_of_selected {σ : Type} (regression : Regression) (host : Host σ)
    (catalog : List Parameters) (sortBy : String) (ordering : estimateOrdering)
    (h : selectOrdering sortBy = some ordering) :
    (∀ value,
        (mainErr regression host catalog sortBy).result ≠ .error (.unknownSortBy value)) ∧
      (∀ rows, (mainErr regression host catalog sortBy).result = .ok rows →
        ∃ info hps, rows = printEstimates catalog info hps ordering) := by
  unfold mainErr
  rw [h]
  simp only
  cases host.openTPM with
  | error err => exact ⟨fun value hc => by simp at hc, fun rows hc => by simp at hc⟩
  | ok st =>
    simp only
    rcases getTPMInfo host.tpm ⟨st, []⟩ with ⟨s1, _ | info⟩
    · exact ⟨fun value hc => by simp at hc, fun rows hc => by simp at hc⟩
    · simp only
      rcases getHashPerformance regression host.tpm s1 with ⟨s2, _ | hps⟩
      · exact ⟨fun value hc => by simp at hc, fun rows hc => by simp at hc⟩
      · refine ⟨fun value hc => by simp at hc, fun rows hc => ?_⟩
        simp only [Except.ok.injEq] at hc
        exact ⟨info, hps, hc.symm⟩

/-- C6. For every `sort_by` string other than "name", "keygen", "signing" and "size",
`mainErr` returns the unknown-sort_by error without any event: the TPM is not opened and no
command is sent to the device.  For each of the four strings the switch selects `byName`,
`byKeygenWork`, `bySigWork` and `bySigSize` respectively, `mainErr` does not return the
unknown-sort_by error, and the rows of a successful run are those of `printEstimates` under
the selected ordering. -/
theorem mainErr_sort_by {σ : Type} (regression : Regression) (host : Host σ)
    (catalog : List Parameters) (sortBy : String) :
    (sortBy ∉ ["name", "keygen", "signing", "size"] →
        (mainErr regression host catalog sortBy).result = .error (.unknownSortBy sortBy) ∧
        (mainErr regression host catalog sortBy).events = []) ∧
      (∀ ordering,
        (sortBy, ordering) ∈ [("name", byName), ("keygen", byKeygenWork),
          ("signing", bySigWork), ("size", bySigSize)] →
        selectOrdering sortBy = some ordering ∧
        (∀ value,
        (mainErr regression host catalog sortBy).result ≠ .error (.unknownSortBy value)) ∧
        (∀ rows, (mainErr regression host catalog sortBy).result = .ok rows →
          ∃ info hps, rows = printEstimates catalog info hps ordering)) := by
  constructor
  · intro h
    simp only [List.mem_cons, List.mem_singleton, List.not_mem_nil, or_false, not_or] at h
    obtain ⟨h1, h2, h3, h4⟩ := h
    unfold mainErr
    rw [selectOrdering_unknown sortBy h1 h2 h3 h4]
    exact ⟨rfl, rfl⟩
  · intro ordering h
    have hsel : selectOrdering sortBy = some ordering := by
      simp only [List.mem_cons, Prod.mk.injEq, List.mem_singleton, List.not_mem_nil,
        or_false] at h
      rcases h with ⟨rfl, rfl⟩ | ⟨rfl, rfl⟩ | ⟨rfl, rfl⟩ | ⟨rfl, rfl⟩ <;> decide
    exact ⟨hsel, mainErr_of_selected regression host catalog sortBy ordering hsel⟩

theorem mainErr_sort_by_witness :
    ((mainErr leastSquares ⟨.ok 0, linearDevice 5 3⟩ [schemeA, schemeB] "speed").result =
          .error (.unknownSortBy "speed") ∧
        (mainErr leastSquares ⟨.ok 0, linearDevice 5 3⟩ [schemeA, schemeB] "speed").events =
          []) ∧
      selectOrdering "keygen" = some byKeygenWork :=
  ⟨(mainErr_sort_by leastSquares ⟨.ok 0, linearDevice 5 3⟩ [schemeA, schemeB] "speed").1
      (by decide),
    ((mainErr_sort_by leastSquares ⟨.ok 0, linearDevice 5 3⟩ [schemeA, schemeB] "keygen").2
      byKeygenWork (by decide)).1⟩

end Tpmhbs
